import Mathlib

/-!
Verification of the Word-document merge engine (`DocumentMerger` in
`src/app.py`, with configuration limits in `src/config.py`).

The engine operates on python-docx documents.  For the merge logic a
document is its body: an ordered sequence of block-level elements, each a
paragraph (`w:p`, a list of runs) or a table (`w:tbl`).  The code never
inspects table internals (it only checks the `tbl` tag), so tables are
modelled opaquely.  A run is modelled by the data the code reads:

  * `text`  — the run's text content (the `w:t` nodes); every use in the
    code tests the text only through `str.strip()`, so the `"\n"` that
    python-docx renders for a `w:br` node is irrelevant (it strips to
    empty) and is not included;
  * `bold`, `italic`, `underline` — the truthiness of `run.bold` etc.
    (`None`/`False` both behave as `false` under `if run.bold:`);
  * `hasPageBreak` — whether the run contains a `<w:br w:type="page"/>`
    node (the xpath `.//w:br[@w:type="page"]` used by the code).

Paragraph styles (`Title`, `Heading 1`, `List Number`, `Normal`) are kept
because the cover-page and table-of-contents passes create styled
paragraphs; the merge logic itself never reads styles.  Pure formatting the
logic never reads (font size, colour, alignment) is not modelled.

Mutation of the lxml tree is modelled by explicit state passing: each
method of `DocumentMerger` becomes a function from the master body (and
stats) to the new body (and stats).  `Document(...)` failing to open a
source is modelled by `DocInfo.load = none`; raising is modelled by
`Except.error`.  Wall-clock statistics (`processing_time`) and the image
counter (never updated by the merge path) are not modelled.

The body holds the block-level `w:p`/`w:tbl` elements only; the trailing
`w:sectPr` node of a real package (which none of the paragraph, table or
content checks reads) and other non-block nodes are outside the model, as
in the specification's data model.  The lxml identity comparison
`element != source_elements[-1]` becomes a comparison of positions.
-/

namespace WordMerge

/-- A run of a paragraph, with the fields the merge code reads. -/
structure Run where
  text : String
  bold : Bool := false
  italic : Bool := false
  underline : Bool := false
  hasPageBreak : Bool := false
deriving Repr, DecidableEq

/-- A block-level body element: a styled paragraph (list of runs) or a
table, the two tags (`p` / `tbl`) the code discriminates on. -/
inductive Element where
  | para (style : String) (runs : List Run)
  | table
deriving Repr, DecidableEq

/-- The tag check `element.tag.endswith('p')`. -/
def Element.isPara : Element → Bool
  | .para _ _ => true
  | .table => false

/-- The tag check `element.tag.endswith('tbl')`. -/
def Element.isTable : Element → Bool
  | .para _ _ => false
  | .table => true

/-- Every use of `str.strip()` in the merge code only tests the result's
truthiness, i.e. whether the stripped text is empty; that holds exactly
when every character of the text is whitespace. -/
def strippedEmpty (s : String) : Bool :=
  s.toList.all Char.isWhitespace

/-- `para.text` and equally the element-level
`''.join(node.text for node in element.iter() if node.text)`: the
concatenated text of the runs. -/
def paraText (runs : List Run) : String :=
  String.join (runs.map Run.text)

/-- `doc.paragraphs`: the run lists of the `w:p` elements, in order. -/
def paragraphsOf (body : List Element) : List (List Run) :=
  body.filterMap fun e =>
    match e with
    | .para _ rs => some rs
    | .table => none

/-- `len(doc.tables)`. -/
def tablesCount (body : List Element) : Nat :=
  (body.filter Element.isTable).length

/-- `DocumentMerger._has_real_content` (app.py 202-217): false iff every
paragraph is whitespace-only and there is no table, written with the same
chain of early returns as the code. -/
def hasRealContent (body : List Element) : Bool :=
  if (paragraphsOf body).length == 0 && tablesCount body == 0 then false
  else if (paragraphsOf body).any (fun rs => !strippedEmpty (paraText rs)) then true
  else if 0 < tablesCount body then true
  else false

/-- An element the reversed scan of `_get_last_meaningful_element`
(app.py 219-232) stops at: a paragraph with non-whitespace text, or any
table.  The start-index scan of `_append_document` (app.py 354-363) stops
at exactly the same elements. -/
def Element.meaningful : Element → Bool
  | .para _ rs => !strippedEmpty (paraText rs)
  | .table => true

/-- The reversed-scan loop of `_get_last_meaningful_element`. -/
def lastMeaningfulRev : List Element → Option Element
  | [] => none
  | e :: rest => if Element.meaningful e then some e else lastMeaningfulRev rest

/-- `DocumentMerger._get_last_meaningful_element` (app.py 219-232). -/
def getLastMeaningfulElement (body : List Element) : Option Element :=
  lastMeaningfulRev body.reverse

/-- The `has_special_formatting` scan of `_clean_empty_paragraphs_at_end`
(app.py 247-256): some run holds an explicit page break, or is flagged
bold/italic/underline. -/
def paraSpecial (runs : List Run) : Bool :=
  runs.any fun r => r.hasPageBreak || r.bold || r.italic || r.underline

/-- The `all_empty` scan (app.py 267-272): no run has text that is both
non-empty and non-whitespace. -/
def runsAllEmpty (runs : List Run) : Bool :=
  runs.all fun r => r.text == "" || strippedEmpty r.text

/-- One iteration's removal decision of `_clean_empty_paragraphs_at_end`
(app.py 258-284): the last paragraph is detached iff its stripped text is
empty, it has no special formatting, and (when it has runs) all run texts
are empty or whitespace. -/
def removablePara (runs : List Run) : Bool :=
  if strippedEmpty (paraText runs) && !paraSpecial runs && runs.length == 0 then true
  else if strippedEmpty (paraText runs) && !paraSpecial runs then runsAllEmpty runs
  else false

/-- The while-loop of `_clean_empty_paragraphs_at_end` viewed from the end
of the body: the loop repeatedly examines `doc.paragraphs[-1]` — the last
`w:p` in body order, with any tables after it left untouched — and
detaches it while it is removable, stopping at the first non-removable
last paragraph (or when no paragraph is left).  Walking the reversed body,
that is: pass over tables, drop removable paragraphs, and stop at the
first non-removable paragraph keeping everything beneath it. -/
def cleanRevAux : List Element → List Element
  | [] => []
  | .table :: rest => .table :: cleanRevAux rest
  | .para st rs :: rest =>
      if removablePara rs then cleanRevAux rest else .para st rs :: rest

/-- `DocumentMerger._clean_empty_paragraphs_at_end` (app.py 234-284). -/
def cleanEmptyParasAtEnd (body : List Element) : List Element :=
  (cleanRevAux body.reverse).reverse

/-- The run `document.add_page_break()` creates: no `w:t` text, one
`<w:br w:type="page"/>`. -/
def pageBreakRun : Run :=
  { text := "", hasPageBreak := true }

/-- The paragraph `document.add_page_break()` appends to the body. -/
def pageBreakPara : Element :=
  .para "Normal" [pageBreakRun]

/-- A run with text and no formatting flags, as `add_run(text)` creates. -/
def plainRun (t : String) : Run :=
  { text := t }

/-- `add_paragraph(text, style)` / `add_heading`: a paragraph that holds
one plain run when the text is non-empty and no run otherwise (python-docx
only calls `add_run` under `if text:`). -/
def mkPara (style text : String) : Element :=
  .para style (if text == "" then [] else [plainRun text])

/-- The merge options, the keys `merge_options` carries (app.py 819-832)
read via `options.get(...)`; a missing boolean key reads as `false`, the
cover strings read with `.get`'s defaults (modelled by `Option`).
`preserve_styles` is set by the UI but never read by the merger, so it is
not modelled.  `now` stands for the `datetime.now()` timestamp text used
by the default cover subtitle. -/
structure MergeOpts where
  addPageBreak : Bool := false
  addSeparator : Bool := false
  numberDocuments : Bool := false
  addCoverPage : Bool := false
  addTableOfContents : Bool := false
  stopOnError : Bool := false
  coverTitle : Option String := none
  coverSubtitle : Option String := none
  coverInfo : Option String := none
  now : String := ""
deriving Repr, DecidableEq

/-- The statistics accumulator (app.py 189-195); `total_images` is never
updated by the merge path and `processing_time` is wall-clock, so neither
is modelled. -/
structure Stats where
  totalDocs : Nat := 0
  totalParagraphs : Nat := 0
  totalTables : Nat := 0
deriving Repr, DecidableEq

/-- One input descriptor: the display name, and the result of opening the
source with `Document(...)` — `none` models a load/parse failure raising
an exception, `some body` a successful load. -/
structure DocInfo where
  name : String
  load : Option (List Element)
deriving Repr, DecidableEq

/-- Decidable equality on merge results, so concrete runs of the engine can
be checked by `decide`. -/
instance : DecidableEq (Except String (List Element × Stats)) := fun a b =>
  match a, b with
  | .ok x, .ok y => decidable_of_iff (x = y) (by constructor <;> intro h <;> simp_all)
  | .error x, .error y => decidable_of_iff (x = y) (by constructor <;> intro h <;> simp_all)
  | .ok _, .error _ => .isFalse (by intro h; cases h)
  | .error _, .ok _ => .isFalse (by intro h; cases h)

/-- `master.paragraphs[-1].runs` when the master has a paragraph
(app.py 316-318): the runs of the last `w:p` in body order. -/
def lastParaRunsRev : List Element → Option (List Run)
  | [] => none
  | .para _ rs :: _ => some rs
  | .table :: rest => lastParaRunsRev rest

/-- The last paragraph's runs, `none` iff `len(master.paragraphs) == 0`. -/
def lastParaRuns? (body : List Element) : Option (List Run) :=
  lastParaRunsRev body.reverse

/-- The `start_idx` loop of `_append_document` (app.py 353-363): the index
of the first meaningful element, `0` when there is none. -/
def firstContentIdxAux : List Element → Option Nat
  | [] => none
  | e :: rest =>
      if Element.meaningful e then some 0
      else (firstContentIdxAux rest).map (· + 1)

/-- `start_idx` as the code leaves it: found index, else 0. -/
def firstContentIdx (body : List Element) : Nat :=
  (firstContentIdxAux body).getD 0

/-- The per-element filter of app.py 367-384: a paragraph is dropped iff
its text is whitespace-only, it holds no page-break node, and it is not
the final element of the source body; tables are always kept. -/
def keepInSplice (e : Element) (isLast : Bool) : Bool :=
  match e with
  | .para _ rs =>
      !(strippedEmpty (paraText rs) && !(rs.any fun r => r.hasPageBreak) && !isLast)
  | .table => true

/-- The filter loop over `source_elements[start_idx:]`, where only the
very last element (`element != source_elements[-1]` is identity in lxml)
is exempt from the blank-paragraph drop. -/
def filterKeepLast : List Element → List Element
  | [] => []
  | [e] => if keepInSplice e true then [e] else []
  | e :: rest =>
      if keepInSplice e false then e :: filterKeepLast rest else filterKeepLast rest

/-- The splice window of a source document: elements from `start_idx` on,
with interior blank paragraphs dropped (app.py 349-384). -/
def spliceWindow (body : List Element) : List Element :=
  filterKeepLast (body.drop (firstContentIdx body))

/-- `len([p for p in source.paragraphs if p.text.strip()])` (app.py 394). -/
def nonBlankParaCount (body : List Element) : Nat :=
  ((paragraphsOf body).filter fun rs => !strippedEmpty (paraText rs)).length

/-- The header paragraph of the `number_documents` option (app.py 334-339):
one bold run `Documento {n}: {name}`. -/
def headerPara (n : Nat) (name : String) : Element :=
  .para "Normal" [{ text := "Documento " ++ toString n ++ ": " ++ name, bold := true }]

/-- The separator paragraph of the `add_separator` option (app.py 342-347):
one run of eighty `─` characters. -/
def separatorPara : Element :=
  .para "Normal" [plainRun (String.mk (List.replicate 80 '─'))]

/-- `DocumentMerger._append_document` (app.py 286-395), as a function from
the master body and stats to the new master body and stats.  The
sequential mutations of the method body become the chain `m1`..`m6`. -/
def appendDocument (master source : List Element) (docNumber : Nat)
    (docName : String) (opts : MergeOpts) (stats : Stats) :
    List Element × Stats :=
  if !hasRealContent source then (master, stats)
  else
    let m1 := cleanEmptyParasAtEnd master
    let m2 :=
      if opts.addPageBreak && hasRealContent m1 then
        match getLastMeaningfulElement m1 with
        | none => m1
        | some _ =>
          match lastParaRuns? m1 with
          | some rs =>
              if rs.any (fun r => r.hasPageBreak) then m1 else m1 ++ [pageBreakPara]
          | none => m1 ++ [pageBreakPara]
      else m1
    let m3 := if opts.numberDocuments then m2 ++ [headerPara docNumber docName] else m2
    let m4 := if opts.addSeparator then m3 ++ [separatorPara] else m3
    let m5 := m4 ++ spliceWindow source
    let m6 := cleanEmptyParasAtEnd m5
    (m6,
      { stats with
          totalParagraphs := stats.totalParagraphs + nonBlankParaCount source
          totalTables := stats.totalTables + tablesCount source })

/-- `first_para.insert_paragraph_before()` (app.py 486-489): a new blank
paragraph directly before the first `w:p` of the body, nothing when the
body has no paragraph. -/
def insertBlankBeforeFirstPara (body : List Element) : List Element :=
  match firstParaIdx body with
  | none => body
  | some i => body.take i ++ [Element.para "Normal" []] ++ body.drop i
where
  firstParaIdx : List Element → Option Nat
    | [] => none
    | e :: rest =>
        if e.isPara then some 0 else (firstParaIdx rest).map (· + 1)

/-- `DocumentMerger._add_cover_page` (app.py 483-511).  `add_heading(_, 0)`
appends a `Title`-styled paragraph at the end of the body; the subtitle
defaults to `Generado el {now}` when the option is empty and carries an
italic run; the final page break is appended only when the document then
has real content. -/
def addCoverPage (doc : List Element) (opts : MergeOpts) : List Element :=
  let d1 := insertBlankBeforeFirstPara doc
  let d2 := d1 ++ [mkPara "Title" (opts.coverTitle.getD "Documentos Combinados")]
  let subtitleText :=
    if opts.coverSubtitle.getD "" == "" then "Generado el " ++ opts.now
    else opts.coverSubtitle.getD ""
  let d3 :=
    if subtitleText == "" then d2
    else d2 ++ [Element.para "Normal" [{ text := subtitleText, italic := true }]]
  let d4 :=
    if opts.coverInfo.getD "" == "" then d3
    else d3 ++ [mkPara "Normal" (opts.coverInfo.getD "")]
  if hasRealContent d4 then d4 ++ [pageBreakPara] else d4

/-- One numbered listing line of the table of contents (app.py 530-531):
`add_paragraph(f"{idx}. {name}", style='List Number')`. -/
def tocItemPara (idx : Nat) (name : String) : Element :=
  .para "List Number" [plainRun (toString idx ++ ". " ++ name)]

/-- `DocumentMerger._add_table_of_contents` (app.py 513-535): trim, page
break if the document has content, `Heading 1` title, one spacer
paragraph, one numbered line per input document (names in input order),
and an unconditional trailing page break. -/
def addTableOfContents (doc : List Element) (documents : List DocInfo) :
    List Element :=
  let d1 := cleanEmptyParasAtEnd doc
  let d2 := if hasRealContent d1 then d1 ++ [pageBreakPara] else d1
  let d3 := d2 ++ [mkPara "Heading 1" "Índice de Contenidos"]
  let d4 := d3 ++ [Element.para "Normal" []]
  let d5 := d4 ++ (documents.enumFrom 1).map fun p => tocItemPara p.1 p.2.name
  d5 ++ [pageBreakPara]

/-- The loop over `documents[1:]` of `merge_documents` (app.py 436-459),
carried out over `(doc_number, doc_info)` pairs numbered from 2.  A load
failure raises: with `stop_on_error` it is re-raised aborting the merge,
otherwise the document is skipped with `continue`. -/
def processRest (opts : MergeOpts) :
    List (Nat × DocInfo) → List Element → Stats →
    Except String (List Element × Stats)
  | [], master, stats => .ok (master, stats)
  | (idx, d) :: rest, master, stats =>
    match d.load with
    | none =>
        if opts.stopOnError then .error ("Error procesando " ++ d.name)
        else processRest opts rest master stats
    | some src =>
        let ms := appendDocument master src idx d.name opts stats
        processRest opts rest ms.1 ms.2

/-- `DocumentMerger.merge_documents` (app.py 397-481): empty input raises;
`total_docs` is set to the input length up front; the first document is
loaded as the master (a failure there is outside the per-document
`try` and aborts via the outer handler regardless of `stop_on_error`);
the cover page is a pre-pass, the table of contents a post-pass over the
full input list.  The serialized bytes are represented by the final body. -/
def mergeDocuments (documents : List DocInfo) (opts : MergeOpts) :
    Except String (List Element × Stats) :=
  match documents with
  | [] => .error "No hay documentos para combinar"
  | first :: rest =>
    let stats0 : Stats := { totalDocs := rest.length + 1 }
    match first.load with
    | none => .error ("Error en merge_documents: " ++ first.name)
    | some base =>
      let master0 := if opts.addCoverPage then addCoverPage base opts else base
      match processRest opts (rest.enumFrom 2) master0 stats0 with
      | .error e => .error e
      | .ok ms =>
          let final :=
            if opts.addTableOfContents then addTableOfContents ms.1 documents
            else ms.1
          .ok (final, ms.2)

/-! Measurement definitions used by the statements: these observe a body,
they are not part of the translated engine. -/

/-- An element that carries an explicit page-break node somewhere inside
(for a table this never happens in the model, matching the code, which
only applies its break scan to `w:p` elements). -/
def Element.hasBreakNode : Element → Bool
  | .para _ rs => rs.any fun r => r.hasPageBreak
  | .table => false

/-- How many elements of a body carry an explicit page break. -/
def breakParaCount (body : List Element) : Nat :=
  (body.filter Element.hasBreakNode).length

/-- A body none of whose elements carries a page-break node. -/
def bodyBreakFree (body : List Element) : Bool :=
  body.all fun e => !e.hasBreakNode

/-- A body beginning with an element whose only purpose is a page break:
its first element carries a page-break node but no meaningful content. -/
def headIsPurposelessBreak (body : List Element) : Bool :=
  match body.head? with
  | some e => e.hasBreakNode && !e.meaningful
  | none => false

/-! Concrete scenario inputs. -/

/-- Document A of the two-document scenario: one paragraph `Hello` and a
trailing blank paragraph. -/
def docHello : List Element :=
  [Element.para "Normal" [plainRun "Hello"], Element.para "Normal" []]

/-- Document B of the two-document scenario: one paragraph `World`. -/
def docWorld : List Element :=
  [Element.para "Normal" [plainRun "World"]]

/-- Options with only `add_page_break` on. -/
def pageBreakOnlyOpts : MergeOpts :=
  { addPageBreak := true }

/-! Page-break boundaries of a full merge (C3). -/

/-- A body ending in a paragraph with non-whitespace text none of whose
runs carries a page break. -/
def endsContentParaNB (body : List Element) : Bool :=
  match body.getLast? with
  | some (.para _ rs) =>
      !strippedEmpty (paraText rs) && rs.all (fun r => !r.hasPageBreak)
  | _ => false

/-- A source suitable for exact boundary counting: it loads, contains no
page-break nodes of its own, and — when it has real content — ends in a
non-whitespace paragraph. -/
def goodSource (d : DocInfo) : Bool :=
  match d.load with
  | none => false
  | some b => bodyBreakFree b && (!hasRealContent b || endsContentParaNB b)

/-- Whether an input loads and has real content (such documents are the
ones that can contribute a page-break boundary). -/
def loadedContentful (d : DocInfo) : Bool :=
  match d.load with
  | none => false
  | some b => hasRealContent b

/-- The loop invariant for the boundary count: after `k` content-bearing
documents have reached the master, it carries `k - 1` break paragraphs;
while `k = 0` it has no real content, and once `k ≠ 0` it has real content
and ends in a break-free non-whitespace paragraph. -/
def MasterInv (m : List Element) (k : Nat) : Prop :=
  breakParaCount m = k - 1 ∧
  (k = 0 → hasRealContent m = false) ∧
  (k ≠ 0 → hasRealContent m = true ∧ endsContentParaNB m = true)

/-! Basic facts about the content classifier. -/

theorem paragraphsOf_append (a b : List Element) :
    paragraphsOf (a ++ b) = paragraphsOf a ++ paragraphsOf b := by
  simp [paragraphsOf]

theorem tablesCount_append (a b : List Element) :
    tablesCount (a ++ b) = tablesCount a + tablesCount b := by
  simp [tablesCount]

/-- `_has_real_content` collapses to: some paragraph has non-whitespace
text, or there is at least one table (the leading zero-zero early return
is subsumed). -/
theorem hasRealContent_eq (body : List Element) :
    hasRealContent body =
      ((paragraphsOf body).any (fun rs => !strippedEmpty (paraText rs)) ||
        decide (0 < tablesCount body)) := by
  unfold hasRealContent
  split_ifs with h1 h2 h3 <;> simp_all

/-- `_has_real_content` equals "some element is meaningful". -/
theorem hasRealContent_eq_any (body : List Element) :
    hasRealContent body = body.any Element.meaningful := by
  rw [hasRealContent_eq]
  induction body with
  | nil => simp [paragraphsOf, tablesCount]
  | cons e t ih =>
    cases e with
    | para st rs =>
      simp only [paragraphsOf, tablesCount, List.filterMap_cons, List.filter_cons,
        List.any_cons, Element.meaningful, Element.isTable] at *
      simp only [List.any_cons, Bool.or_assoc]
      rw [← ih]
      simp
    | table =>
      simp [paragraphsOf, tablesCount, List.filter_cons, Element.meaningful,
        Element.isTable, List.any_cons]

theorem hasRealContent_append (a b : List Element) :
    hasRealContent (a ++ b) = (hasRealContent a || hasRealContent b) := by
  rw [hasRealContent_eq_any, hasRealContent_eq_any, hasRealContent_eq_any,
    List.any_append]

/-- C2: `has_real_content(D)` is false iff every paragraph of `D` is
whitespace-only (or empty) and `D` has no tables.  In particular it is
false for zero paragraphs and zero tables (the conjunction is vacuous),
and true as soon as one paragraph has non-whitespace text or one table
exists.  The embedding is a pure function, so the no-side-effect part of
the claim holds by construction. -/
theorem hasRealContent_false_iff (body : List Element) :
    hasRealContent body = false ↔
      (∀ rs ∈ paragraphsOf body, strippedEmpty (paraText rs) = true) ∧
        tablesCount body = 0 := by
  rw [hasRealContent_eq]
  simp only [Bool.or_eq_false_iff, List.any_eq_false, Bool.not_eq_true',
    decide_eq_false_iff_not, Nat.not_lt, Nat.le_zero]
  simp

/-! Facts about the blank-paragraph trimmer. -/

/-- A removable paragraph has no special formatting. -/
theorem paraSpecial_eq_false_of_removable {rs : List Run}
    (h : removablePara rs = true) : paraSpecial rs = false := by
  by_contra hc
  simp only [Bool.not_eq_false] at hc
  unfold removablePara at h
  simp [hc] at h

/-- A paragraph with non-whitespace text is never removable. -/
theorem removable_eq_false_of_content {rs : List Run}
    (h : strippedEmpty (paraText rs) = false) : removablePara rs = false := by
  unfold removablePara
  split_ifs with h1 h2 <;> simp_all

/-- A removable paragraph has whitespace-only text. -/
theorem strippedEmpty_of_removable {rs : List Run}
    (h : removablePara rs = true) : strippedEmpty (paraText rs) = true := by
  by_contra hc
  simp only [Bool.not_eq_true] at hc
  rw [removable_eq_false_of_content hc] at h
  cases h

/-- A removable paragraph carries no page-break node. -/
theorem hasBreakNode_eq_false_of_removable {st : String} {rs : List Run}
    (h : removablePara rs = true) :
    Element.hasBreakNode (.para st rs) = false := by
  have hs := paraSpecial_eq_false_of_removable h
  simp only [Element.hasBreakNode]
  simp only [paraSpecial, List.any_eq_false] at hs ⊢
  intro r hr
  have := hs r hr
  simp_all

theorem cleanRevAux_sublist : ∀ l : List Element, List.Sublist (cleanRevAux l) l
  | [] => by simp [cleanRevAux]
  | .table :: rest => by
      simpa [cleanRevAux] using List.Sublist.cons₂ Element.table (cleanRevAux_sublist rest)
  | .para st rs :: rest => by
      by_cases h : removablePara rs = true
      · simpa [cleanRevAux, h] using
          List.Sublist.cons (Element.para st rs) (cleanRevAux_sublist rest)
      · simp only [Bool.not_eq_true] at h
        simp [cleanRevAux, h]

/-- The trimmer only removes elements: its result is a sublist. -/
theorem clean_sublist (body : List Element) :
    List.Sublist (cleanEmptyParasAtEnd body) body := by
  have h := List.Sublist.reverse (cleanRevAux_sublist body.reverse)
  simpa [cleanEmptyParasAtEnd] using h

theorem cleanRevAux_idem : ∀ l : List Element,
    cleanRevAux (cleanRevAux l) = cleanRevAux l
  | [] => by simp [cleanRevAux]
  | .table :: rest => by simp [cleanRevAux, cleanRevAux_idem rest]
  | .para st rs :: rest => by
      by_cases h : removablePara rs = true
      · simp [cleanRevAux, h, cleanRevAux_idem rest]
      · simp only [Bool.not_eq_true] at h
        simp [cleanRevAux, h]

/-- The stop paragraph of the trimmer scan is the last paragraph of its
result, and it is not removable. -/
theorem cleanRevAux_first_para_not_removable : ∀ l : List Element, ∀ rs : List Run,
    lastParaRunsRev (cleanRevAux l) = some rs → removablePara rs = false
  | [], rs => by simp [cleanRevAux, lastParaRunsRev]
  | .table :: rest, rs => by
      simpa [cleanRevAux, lastParaRunsRev] using
        cleanRevAux_first_para_not_removable rest rs
  | .para st prs :: rest, rs => by
      by_cases h : removablePara prs = true
      · simpa [cleanRevAux, h] using cleanRevAux_first_para_not_removable rest rs
      · simp only [Bool.not_eq_true] at h
        simp only [cleanRevAux, h, if_neg]
        simp [lastParaRunsRev]
        intro he
        subst he
        exact h

/-- C4: the trimmer is idempotent — a second application changes nothing —
and a single call already reaches the fixed point: the last paragraph of
the result, if any, is ineligible for removal. -/
theorem clean_idempotent (body : List Element) :
    cleanEmptyParasAtEnd (cleanEmptyParasAtEnd body) = cleanEmptyParasAtEnd body ∧
    ∀ rs : List Run, lastParaRuns? (cleanEmptyParasAtEnd body) = some rs →
      removablePara rs = false := by
  constructor
  · simp [cleanEmptyParasAtEnd, cleanRevAux_idem]
  · intro rs h
    apply cleanRevAux_first_para_not_removable body.reverse rs
    simpa [lastParaRuns?, cleanEmptyParasAtEnd] using h

theorem cleanRevAux_count_lt : ∀ l : List Element, ∀ e : Element,
    (cleanRevAux l).count e < l.count e →
    ∃ st rs, e = Element.para st rs ∧ removablePara rs = true
  | [], e => by simp [cleanRevAux]
  | .table :: rest, e => by
      intro h
      apply cleanRevAux_count_lt rest e
      simp only [cleanRevAux, List.count_cons] at h
      omega
  | .para st rs :: rest, e => by
      by_cases hrem : removablePara rs = true
      · intro h
        by_cases he : e = Element.para st rs
        · exact ⟨st, rs, he, hrem⟩
        · apply cleanRevAux_count_lt rest e
          have hc : (Element.para st rs :: rest).count e = rest.count e := by
            rw [List.count_cons]
            simp only [beq_iff_eq, ite_eq_right_iff, Nat.add_eq_left, Nat.add_eq_zero,
              Nat.succ_ne_zero, and_false, imp_false]
            exact fun a => he a.symm
          simp only [cleanRevAux, hrem, if_pos] at h
          rw [hc] at h
          exact h
      · simp only [Bool.not_eq_true] at hrem
        intro h
        simp [cleanRevAux, hrem] at h

/-- C5: every element the trimmer removes (an element whose multiplicity
drops) is a paragraph with whitespace-only text carrying no page-break
node and no bold/italic/underline run; in particular a paragraph with an
explicit page break, or with one of those flags set, is never removed. -/
theorem clean_removes_only_blank_unformatted (body : List Element) (e : Element)
    (h : (cleanEmptyParasAtEnd body).count e < body.count e) :
    ∃ st rs, e = Element.para st rs ∧ strippedEmpty (paraText rs) = true ∧
      paraSpecial rs = false := by
  have h' : (cleanRevAux body.reverse).count e < body.reverse.count e := by
    have e1 : (cleanEmptyParasAtEnd body).count e =
        (cleanRevAux body.reverse).count e := by
      simp [cleanEmptyParasAtEnd, List.count_reverse]
    have e2 : body.count e = body.reverse.count e := by
      simp [List.count_reverse]
    omega
  obtain ⟨st, rs, he, hrem⟩ := cleanRevAux_count_lt body.reverse e h'
  exact ⟨st, rs, he, strippedEmpty_of_removable hrem,
    paraSpecial_eq_false_of_removable hrem⟩

/-- Closed instance: the blank paragraph of a two-element body is removed
by the trimmer, and the theorem certifies it was a whitespace-only
unformatted paragraph. -/
theorem clean_removes_only_blank_unformatted_witness :
    ∃ st rs, (Element.para "Normal" [] : Element) = Element.para st rs ∧
      strippedEmpty (paraText rs) = true ∧ paraSpecial rs = false :=
  clean_removes_only_blank_unformatted
    [Element.para "Normal" [plainRun "x"], Element.para "Normal" []]
    (Element.para "Normal" []) (by decide)

/-! Last-element and fixed-point facts. -/

/-- A body whose last element is `e`, seen from its reverse. -/
theorem exists_reverse_cons_of_getLast? {b : List Element} {e : Element}
    (h : b.getLast? = some e) : ∃ t, b.reverse = e :: t := by
  cases hr : b.reverse with
  | nil =>
    have hb : b = [] := by simpa using congrArg List.reverse hr
    subst hb
    simp at h
  | cons x t =>
    have hx : b.getLast? = some x := by
      rw [← List.head?_reverse, hr]
      rfl
    rw [h] at hx
    injection hx with hx
    subst hx
    exact ⟨t, rfl⟩

/-- The trimmer fixes any body ending in a paragraph with non-whitespace
text: such a paragraph is not removable, so the loop stops at once. -/
theorem clean_eq_self_of_last_content {b : List Element} {st : String}
    {rs : List Run} (h : b.getLast? = some (.para st rs))
    (hc : strippedEmpty (paraText rs) = false) :
    cleanEmptyParasAtEnd b = b := by
  obtain ⟨t, ht⟩ := exists_reverse_cons_of_getLast? h
  have hrem := removable_eq_false_of_content hc
  have haux : cleanRevAux b.reverse = b.reverse := by
    rw [ht]
    simp [cleanRevAux, hrem]
  rw [cleanEmptyParasAtEnd, haux, List.reverse_reverse]

/-- Real content never appears out of nowhere in a sublist. -/
theorem hasRealContent_false_of_sublist {a b : List Element}
    (hs : List.Sublist a b) (h : hasRealContent b = false) :
    hasRealContent a = false := by
  rw [hasRealContent_eq_any] at *
  simp only [List.any_eq_false] at *
  exact fun e he => h e (hs.subset he)

/-! Counting explicit page breaks. -/

theorem breakParaCount_append (a b : List Element) :
    breakParaCount (a ++ b) = breakParaCount a + breakParaCount b := by
  simp [breakParaCount]

theorem breakParaCount_reverse (b : List Element) :
    breakParaCount b.reverse = breakParaCount b := by
  simp [breakParaCount, List.filter_reverse]

theorem breakParaCount_singleton {e : Element}
    (h : e.hasBreakNode = false) : breakParaCount [e] = 0 := by
  simp [breakParaCount, h]

theorem breakParaCount_eq_zero_of_breakFree {b : List Element}
    (h : bodyBreakFree b = true) : breakParaCount b = 0 := by
  simp only [bodyBreakFree, List.all_eq_true, Bool.not_eq_true'] at h
  simp only [breakParaCount, List.length_eq_zero, List.filter_eq_nil_iff]
  intro e he
  simp [h e he]

theorem breakFree_of_sublist {a b : List Element}
    (hs : List.Sublist a b) (h : bodyBreakFree b = true) :
    bodyBreakFree a = true := by
  simp only [bodyBreakFree, List.all_eq_true] at *
  exact fun e he => h e (hs.subset he)

theorem cleanRevAux_breaks : ∀ l : List Element,
    breakParaCount (cleanRevAux l) = breakParaCount l
  | [] => rfl
  | .table :: rest => by
      have ih := cleanRevAux_breaks rest
      simp only [cleanRevAux, breakParaCount, List.filter_cons] at *
      simpa [Element.hasBreakNode] using ih
  | .para st rs :: rest => by
      by_cases hrem : removablePara rs = true
      · have hb := @hasBreakNode_eq_false_of_removable st rs hrem
        have ih := cleanRevAux_breaks rest
        simp only [cleanRevAux, hrem, if_pos, breakParaCount, List.filter_cons, hb] at *
        simpa using ih
      · simp only [Bool.not_eq_true] at hrem
        simp [cleanRevAux, hrem]

/-- The trimmer never changes the number of explicit page breaks: only
break-free paragraphs are eligible for removal. -/
theorem clean_breaks (b : List Element) :
    breakParaCount (cleanEmptyParasAtEnd b) = breakParaCount b := by
  rw [cleanEmptyParasAtEnd, breakParaCount_reverse, cleanRevAux_breaks,
    breakParaCount_reverse]

/-! The cover-page pass. -/

theorem breakParaCount_insertBlank (b : List Element) :
    breakParaCount (insertBlankBeforeFirstPara b) = breakParaCount b := by
  unfold insertBlankBeforeFirstPara
  cases h : insertBlankBeforeFirstPara.firstParaIdx b with
  | none => rfl
  | some i =>
    rw [breakParaCount_append, breakParaCount_append]
    have h1 : breakParaCount [Element.para "Normal" []] = 0 := rfl
    have h2 : breakParaCount (b.take i) + breakParaCount (b.drop i) =
        breakParaCount b := by
      rw [← breakParaCount_append, List.take_append_drop]
    omega

theorem hasBreakNode_italic_para (st t : String) :
    Element.hasBreakNode (Element.para st [{ text := t, italic := true }]) = false := rfl

theorem hasBreakNode_mkPara (st s : String) :
    Element.hasBreakNode (mkPara st s) = false := by
  by_cases h : s == ""
  · simp [mkPara, h, Element.hasBreakNode]
  · simp only [mkPara, h, if_neg, Bool.false_eq_true, not_false_eq_true]
    simp [Element.hasBreakNode, plainRun]

/-- The body `_add_cover_page` has built just before its final content
check: it is the input plus break-free cover elements, and the method
returns it with a trailing page break exactly when it has real content. -/
theorem addCoverPage_structure (doc : List Element) (opts : MergeOpts) :
    ∃ mid : List Element,
      breakParaCount mid = breakParaCount doc ∧
      addCoverPage doc opts =
        (if hasRealContent mid = true then mid ++ [pageBreakPara] else mid) := by
  refine ⟨(let d1 := insertBlankBeforeFirstPara doc;
    let d2 := d1 ++ [mkPara "Title" (opts.coverTitle.getD "Documentos Combinados")];
    let subtitleText :=
      if opts.coverSubtitle.getD "" == "" then "Generado el " ++ opts.now
      else opts.coverSubtitle.getD "";
    let d3 :=
      if subtitleText == "" then d2
      else d2 ++ [Element.para "Normal" [{ text := subtitleText, italic := true }]];
    if opts.coverInfo.getD "" == "" then d3
    else d3 ++ [mkPara "Normal" (opts.coverInfo.getD "")]), ?_, rfl⟩
  have hblank := breakParaCount_insertBlank doc
  dsimp only
  split_ifs <;>
    simp [breakParaCount_append, hblank, breakParaCount_singleton,
      hasBreakNode_mkPara, hasBreakNode_italic_para] <;>
    simp [breakParaCount, List.filter_cons, hasBreakNode_mkPara,
      hasBreakNode_italic_para]

/-- C7 (amended): `_add_cover_page` appends the cover block at the end of
the body; when the document has real content afterwards exactly one page
break is appended — after the cover block, as the final element — and when
it does not, no break is appended at all. -/
theorem addCoverPage_break_policy (doc : List Element) (opts : MergeOpts) :
    breakParaCount (addCoverPage doc opts) =
      breakParaCount doc +
        (if hasRealContent (addCoverPage doc opts) = true then 1 else 0) ∧
    (hasRealContent (addCoverPage doc opts) = true →
      (addCoverPage doc opts).getLast? = some pageBreakPara) := by
  obtain ⟨mid, hcount, heq⟩ := addCoverPage_structure doc opts
  by_cases h : hasRealContent mid = true
  · have hres : addCoverPage doc opts = mid ++ [pageBreakPara] := by
      rw [heq, if_pos h]
    have hcontent : hasRealContent (addCoverPage doc opts) = true := by
      rw [hres, hasRealContent_append, h, Bool.true_or]
    constructor
    · rw [hcontent, if_pos rfl, hres, breakParaCount_append, hcount]
      rfl
    · intro _
      rw [hres]
      exact List.getLast?_concat _
  · simp only [Bool.not_eq_true] at h
    have hres : addCoverPage doc opts = mid := by
      rw [heq, h]
      rfl
    rw [hres]
    constructor
    · rw [h, hcount]
      rfl
    · intro hc
      rw [hc] at h
      cases h

/-! Statistics bookkeeping of the orchestrator. -/

theorem appendDocument_totalDocs (m src : List Element) (n : Nat)
    (name : String) (opts : MergeOpts) (stats : Stats) :
    ((appendDocument m src n name opts stats).2).totalDocs = stats.totalDocs := by
  unfold appendDocument
  split <;> rfl

theorem processRest_totalDocs (opts : MergeOpts) :
    ∀ (l : List (Nat × DocInfo)) (m : List Element) (s : Stats)
      (ms : List Element × Stats),
      processRest opts l m s = .ok ms → ms.2.totalDocs = s.totalDocs
  | [], m, s, ms => by
      intro h
      simp only [processRest] at h
      injection h with h
      rw [← h]
  | (i, d) :: rest, m, s, ms => by
      intro h
      simp only [processRest] at h
      cases hl : d.load with
      | none =>
        rw [hl] at h
        by_cases hs : opts.stopOnError = true
        · rw [if_pos hs] at h
          cases h
        · rw [if_neg hs] at h
          exact processRest_totalDocs opts rest m s ms h
      | some src =>
        rw [hl] at h
        have := processRest_totalDocs opts rest _ _ ms h
        rw [this, appendDocument_totalDocs]

/-- What `merge_documents` does on a non-empty list whose first document
loads: set `total_docs`, load the base, run the optional cover pass, the
main loop, then the optional table-of-contents pass. -/
theorem mergeDocuments_eq (first : DocInfo) (rest : List DocInfo)
    (opts : MergeOpts) (b : List Element) (hload : first.load = some b) :
    mergeDocuments (first :: rest) opts =
      (match processRest opts (rest.enumFrom 2)
          (if opts.addCoverPage then addCoverPage b opts else b)
          { totalDocs := rest.length + 1 } with
      | .error e => .error e
      | .ok ms =>
          .ok ((if opts.addTableOfContents then
                  addTableOfContents ms.1 (first :: rest)
                else ms.1), ms.2)) := by
  simp only [mergeDocuments, hload]

/-- C10: on every successful merge the returned `total_docs` is the length
of the input list — every input document is counted, including documents
skipped for lacking real content and documents whose load failed while
`stop_on_error` was off. -/
theorem merge_totalDocs_eq_length (documents : List DocInfo)
    (opts : MergeOpts) (out : List Element) (stats : Stats)
    (h : mergeDocuments documents opts = .ok (out, stats)) :
    stats.totalDocs = documents.length := by
  cases documents with
  | nil => simp [mergeDocuments] at h
  | cons first rest =>
    cases hload : first.load with
    | none => simp [mergeDocuments, hload] at h
    | some b =>
      rw [mergeDocuments_eq first rest opts b hload] at h
      cases hpr : processRest opts (rest.enumFrom 2)
          (if opts.addCoverPage then addCoverPage b opts else b)
          { totalDocs := rest.length + 1 } with
      | error e => rw [hpr] at h; cases h
      | ok ms =>
        rw [hpr] at h
        have hd := processRest_totalDocs opts _ _ _ _ hpr
        injection h with h
        have hstats : stats = ms.2 := congrArg Prod.snd h.symm
        rw [hstats, hd]
        simp

/-- Closed instance for the stats theorem: a merge where the second
document is skipped (no real content) still reports two documents. -/
theorem merge_totalDocs_eq_length_witness :
    ({ totalDocs := 2, totalParagraphs := 0, totalTables := 0 } : Stats).totalDocs =
      [(⟨"a", some [mkPara "Normal" "x"]⟩ : DocInfo),
       ⟨"b", some [Element.para "Normal" []]⟩].length :=
  merge_totalDocs_eq_length
    [⟨"a", some [mkPara "Normal" "x"]⟩, ⟨"b", some [Element.para "Normal" []]⟩]
    ({} : MergeOpts) [mkPara "Normal" "x"]
    { totalDocs := 2, totalParagraphs := 0, totalTables := 0 } (by rfl)

/-! Load-failure policy of the orchestrator. -/

theorem processRest_isOk_of_noStop (opts : MergeOpts)
    (hstop : opts.stopOnError = false) :
    ∀ (l : List (Nat × DocInfo)) (m : List Element) (s : Stats),
      ∃ ms, processRest opts l m s = .ok ms
  | [], m, s => ⟨(m, s), rfl⟩
  | (i, d) :: rest, m, s => by
      cases hl : d.load with
      | none =>
        simp only [processRest, hl, hstop, Bool.false_eq_true, if_false]
        exact processRest_isOk_of_noStop opts hstop rest m s
      | some src =>
        simp only [processRest, hl]
        exact processRest_isOk_of_noStop opts hstop rest _ _

theorem processRest_ok_of_all_some (opts : MergeOpts) :
    ∀ (l : List (Nat × DocInfo)) (m : List Element) (s : Stats),
      (∀ p ∈ l, (Prod.snd p).load.isSome = true) →
      ∃ ms, processRest opts l m s = .ok ms
  | [], m, s => fun _ => ⟨(m, s), rfl⟩
  | (i, d) :: rest, m, s => by
      intro hall
      have hd : d.load.isSome = true := hall (i, d) (List.mem_cons_self _ _)
      cases hl : d.load with
      | none => rw [hl] at hd; cases hd
      | some src =>
        simp only [processRest, hl]
        exact processRest_ok_of_all_some opts rest _ _
          (fun p hp => hall p (List.mem_cons_of_mem _ hp))

theorem processRest_append (opts : MergeOpts) :
    ∀ (l₁ l₂ : List (Nat × DocInfo)) (m : List Element) (s : Stats),
      processRest opts (l₁ ++ l₂) m s =
        (match processRest opts l₁ m s with
        | .error e => .error e
        | .ok ms => processRest opts l₂ ms.1 ms.2)
  | [], l₂, m, s => rfl
  | (i, d) :: rest, l₂, m, s => by
      cases hl : d.load with
      | none =>
        by_cases hs : opts.stopOnError = true
        · simp only [List.cons_append, processRest, hl, hs, if_pos]
        · simp only [List.cons_append, processRest, hl, hs, Bool.false_eq_true,
            if_false, if_neg]
          exact processRest_append opts rest l₂ m s
      | some src =>
        simp only [List.cons_append, processRest, hl]
        exact processRest_append opts rest l₂ _ _

/-- C6 (amended): for documents after the first, a load failure aborts the
merge when `stop_on_error` is on, and is skipped — with the merge still
completing — when it is off.  A load failure of the *first* document,
however, always aborts, because the first document is loaded as the base
outside the per-document handler. -/
theorem merge_load_failure_policy (first : DocInfo) (rest : List DocInfo)
    (opts : MergeOpts) (b : List Element) (hload : first.load = some b) :
    (opts.stopOnError = false → (mergeDocuments (first :: rest) opts).isOk = true) ∧
    (∀ (pre post : List DocInfo) (d : DocInfo), opts.stopOnError = true →
      rest = pre ++ d :: post → (∀ x ∈ pre, x.load.isSome = true) →
      d.load = none → (mergeDocuments (first :: rest) opts).isOk = false) := by
  constructor
  · intro hstop
    rw [mergeDocuments_eq first rest opts b hload]
    obtain ⟨ms, hms⟩ := processRest_isOk_of_noStop opts hstop (rest.enumFrom 2)
      (if opts.addCoverPage then addCoverPage b opts else b)
      { totalDocs := rest.length + 1 }
    rw [hms]
    rfl
  · intro pre post d hstop hrest hpre hd
    rw [mergeDocuments_eq first rest opts b hload, hrest]
    rw [List.enumFrom_append, processRest_append]
    obtain ⟨ms, hms⟩ := processRest_ok_of_all_some opts (pre.enumFrom 2)
      (if opts.addCoverPage then addCoverPage b opts else b)
      { totalDocs := (pre ++ d :: post).length + 1 }
      (fun p hp => hpre p.2 (List.snd_mem_of_mem_enumFrom hp))
    rw [hms]
    simp only [List.enumFrom_cons, processRest, hd, hstop, if_pos]
    rfl

/-- C1 (amended): the two-document scenario produces exactly the expected
content — paragraph `Hello`, one inserted page break, paragraph `World`,
with A's trailing blank removed — and stats `total_docs = 2`,
`total_tables = 0`; but `total_paragraphs = 1`, not 2, because the
statistics are only accumulated for appended documents and the first
document is loaded as the base outside `_append_document`. -/
theorem merge_two_docs_scenario :
    mergeDocuments [⟨"A", some docHello⟩, ⟨"B", some docWorld⟩] pageBreakOnlyOpts =
      .ok ([Element.para "Normal" [plainRun "Hello"], pageBreakPara,
            Element.para "Normal" [plainRun "World"]],
           { totalDocs := 2, totalParagraphs := 1, totalTables := 0 }) := rfl

/-- The two-document scenario as the claim states it fails on the stats:
the merge returns `total_paragraphs = 1`, while the claim expects 2. -/
theorem merge_two_docs_stats_counterexample :
    (mergeDocuments [⟨"A", some docHello⟩, ⟨"B", some docWorld⟩]
        pageBreakOnlyOpts).map (fun r => r.2.totalParagraphs) = .ok 1 ∧
      (1 : Nat) ≠ 2 :=
  ⟨rfl, by decide⟩

/-- C3 as stated fails: three documents, each with real content (`x`, a
table, `y`), merged with `add_page_break=true`, yield one page-break
paragraph, not N−1 = 2.  After the table is appended the master's last
*paragraph* is the break paragraph inserted before the table, so the
existing-break check suppresses the break at the table/`y` boundary even
though the table is the last meaningful element. -/
theorem merge_break_boundaries_counterexample :
    (mergeDocuments [⟨"a", some [mkPara "Normal" "x"]⟩, ⟨"b", some [Element.table]⟩,
        ⟨"c", some [mkPara "Normal" "y"]⟩] pageBreakOnlyOpts).map
      (fun r => breakParaCount r.1) = .ok 1 ∧ (1 : Nat) ≠ 3 - 1 :=
  ⟨rfl, by decide⟩

/-- C6 as stated fails at position 0: with `stop_on_error` off, a load
failure of the first document aborts the merge instead of skipping it. -/
theorem merge_first_load_failure_counterexample :
    (mergeDocuments [⟨"a", none⟩, ⟨"b", some [mkPara "Normal" "x"]⟩]
        ({} : MergeOpts)).isOk = false ∧
      ({} : MergeOpts).stopOnError = false :=
  ⟨rfl, rfl⟩

/-- Closed instance of the load-failure policy: the second document fails
to load, `stop_on_error` is off, and the merge still completes. -/
theorem merge_load_failure_policy_witness :
    (mergeDocuments [⟨"a", some [mkPara "Normal" "x"]⟩, ⟨"b", none⟩]
        ({} : MergeOpts)).isOk = true :=
  (merge_load_failure_policy ⟨"a", some [mkPara "Normal" "x"]⟩ [⟨"b", none⟩]
    ({} : MergeOpts) [mkPara "Normal" "x"] rfl).1 rfl

/-- C7 as stated fails: on a document with body paragraph `Hello`, the
cover pass leaves the body at index 1, the cover block (title, subtitle)
at indices 2–3, and the single page break at index 4 — after the cover
block at the very end.  No page break lies between the cover block and
the body (everything before index 4 is break-free), so no break
"separates the cover from the body"; and although nothing follows the
cover block, a trailing break *is* appended. -/
theorem addCoverPage_position_counterexample :
    addCoverPage [mkPara "Normal" "Hello"] { coverTitle := some "T", now := "X" } =
      [Element.para "Normal" [], mkPara "Normal" "Hello", mkPara "Title" "T",
       Element.para "Normal" [{ text := "Generado el X", italic := true }],
       pageBreakPara] ∧
    ((addCoverPage [mkPara "Normal" "Hello"]
        { coverTitle := some "T", now := "X" }).take 4).all
      (fun e => !e.hasBreakNode) = true :=
  ⟨rfl, rfl⟩

/-- C9 as stated fails, on its tail side only.  (i) After the
table-of-contents pass the master ends with a page-break paragraph
followed by no content at all; (ii) the cover-page pass likewise leaves a
trailing page-break paragraph with nothing after it; (iii) an append can
leave the master ending in TWO empty paragraphs — both with
whitespace-only text, as the last two conjuncts certify — because the
trailing trimmer spares empty paragraphs carrying special formatting
(here a page-break run and a bold run). -/
theorem master_trailing_break_counterexample :
    (mergeDocuments [⟨"a", some [mkPara "Normal" "x"]⟩]
        ({ addTableOfContents := true } : MergeOpts)).map
      (fun r => r.1.getLast?) = .ok (some pageBreakPara) ∧
    (addCoverPage [mkPara "Normal" "Hola"]
        ({ coverTitle := some "P", now := "Z" } : MergeOpts)).getLast? =
      some pageBreakPara ∧
    (appendDocument [mkPara "Normal" "m"]
        [Element.para "Normal" [plainRun "x"],
         Element.para "Normal" [{ text := "", hasPageBreak := true }],
         Element.para "Normal" [{ text := "", bold := true }]]
        2 "b" pageBreakOnlyOpts {}).1 =
      [mkPara "Normal" "m", pageBreakPara,
       Element.para "Normal" [plainRun "x"],
       Element.para "Normal" [{ text := "", hasPageBreak := true }],
       Element.para "Normal" [{ text := "", bold := true }]] ∧
    strippedEmpty (paraText [{ text := "", hasPageBreak := true }]) = true ∧
    strippedEmpty (paraText [{ text := "", bold := true }]) = true ∧
    pageBreakPara = Element.para "Normal" [{ text := "", hasPageBreak := true }] :=
  ⟨rfl, rfl, rfl, rfl, rfl, rfl⟩

/-! The table-of-contents tail of a merge. -/

/-- C8 (amended): a successful 3-document merge with
`add_table_of_contents=true` ends with the table-of-contents heading, one
empty spacer paragraph, exactly three numbered-list paragraphs naming the
input documents in input order, and an unconditional trailing page break. -/
theorem merge_toc_tail (d1 d2 d3 : DocInfo) (opts : MergeOpts)
    (out : List Element) (stats : Stats)
    (htoc : opts.addTableOfContents = true)
    (h : mergeDocuments [d1, d2, d3] opts = .ok (out, stats)) :
    ∃ pre, out = pre ++
      [mkPara "Heading 1" "Índice de Contenidos", Element.para "Normal" [],
       tocItemPara 1 d1.name, tocItemPara 2 d2.name, tocItemPara 3 d3.name,
       pageBreakPara] := by
  cases hload : d1.load with
  | none => simp [mergeDocuments, hload] at h
  | some b =>
    rw [mergeDocuments_eq d1 [d2, d3] opts b hload] at h
    cases hpr : processRest opts ([d2, d3].enumFrom 2)
        (if opts.addCoverPage then addCoverPage b opts else b)
        { totalDocs := [d2, d3].length + 1 } with
    | error e => rw [hpr] at h; cases h
    | ok ms =>
      rw [hpr] at h
      injection h with h
      have hout : out = addTableOfContents ms.1 [d1, d2, d3] := by
        have hfst := congrArg Prod.fst h
        simp only [htoc, if_pos] at hfst
        exact hfst.symm
      rw [hout]
      unfold addTableOfContents
      refine ⟨(if hasRealContent (cleanEmptyParasAtEnd ms.1) = true then
        cleanEmptyParasAtEnd ms.1 ++ [pageBreakPara]
        else cleanEmptyParasAtEnd ms.1), ?_⟩
      simp [List.append_assoc, tocItemPara]

/-- Closed instance of the table-of-contents tail theorem at a concrete
3-document merge. -/
theorem merge_toc_tail_witness :
    ∃ pre,
      [mkPara "Normal" "x", mkPara "Normal" "y", mkPara "Normal" "z",
       pageBreakPara, mkPara "Heading 1" "Índice de Contenidos",
       Element.para "Normal" [], tocItemPara 1 "a", tocItemPara 2 "b",
       tocItemPara 3 "c", pageBreakPara] = pre ++
        [mkPara "Heading 1" "Índice de Contenidos", Element.para "Normal" [],
         tocItemPara 1 "a", tocItemPara 2 "b", tocItemPara 3 "c",
         pageBreakPara] :=
  merge_toc_tail ⟨"a", some [mkPara "Normal" "x"]⟩ ⟨"b", some [mkPara "Normal" "y"]⟩
    ⟨"c", some [mkPara "Normal" "z"]⟩ ({ addTableOfContents := true } : MergeOpts)
    [mkPara "Normal" "x", mkPara "Normal" "y", mkPara "Normal" "z",
     pageBreakPara, mkPara "Heading 1" "Índice de Contenidos",
     Element.para "Normal" [], tocItemPara 1 "a", tocItemPara 2 "b",
     tocItemPara 3 "c", pageBreakPara]
    { totalDocs := 3, totalParagraphs := 2, totalTables := 0 } rfl rfl

/-- C8 as stated fails on the same concrete merge: the output does not end
with the heading directly followed by the three numbered paragraphs — an
empty spacer paragraph sits between the heading and the list, and the
final element is a page break, not a numbered paragraph. -/
theorem merge_toc_tail_counterexample :
    (mergeDocuments [⟨"a", some [mkPara "Normal" "x"]⟩,
        ⟨"b", some [mkPara "Normal" "y"]⟩, ⟨"c", some [mkPara "Normal" "z"]⟩]
        ({ addTableOfContents := true } : MergeOpts)).map (fun r => r.1) =
      .ok [mkPara "Normal" "x", mkPara "Normal" "y", mkPara "Normal" "z",
           pageBreakPara, mkPara "Heading 1" "Índice de Contenidos",
           Element.para "Normal" [], tocItemPara 1 "a", tocItemPara 2 "b",
           tocItemPara 3 "c", pageBreakPara] ∧
    pageBreakPara ≠ tocItemPara 3 "c" :=
  ⟨rfl, by decide⟩

/-! Facts supporting the page-break boundary count (C3). -/

theorem lastMeaningfulRev_isSome : ∀ l : List Element,
    l.any Element.meaningful = true → (lastMeaningfulRev l).isSome = true
  | [], h => by simp at h
  | e :: rest, h => by
      by_cases he : Element.meaningful e = true
      · simp [lastMeaningfulRev, he]
      · simp only [Bool.not_eq_true] at he
        simp only [List.any_cons, he, Bool.false_or] at h
        simpa [lastMeaningfulRev, he] using lastMeaningfulRev_isSome rest h

/-- A content-bearing body has a last meaningful element. -/
theorem getLastMeaningful_isSome {b : List Element}
    (h : hasRealContent b = true) :
    (getLastMeaningfulElement b).isSome = true := by
  rw [getLastMeaningfulElement]
  apply lastMeaningfulRev_isSome
  rw [List.any_reverse, ← hasRealContent_eq_any]
  exact h

/-- When the body's very last element is a paragraph, it is the last
paragraph the code reads through `doc.paragraphs[-1]`. -/
theorem lastParaRuns?_of_getLast_para {b : List Element} {st : String}
    {rs : List Run} (h : b.getLast? = some (.para st rs)) :
    lastParaRuns? b = some rs := by
  obtain ⟨t, ht⟩ := exists_reverse_cons_of_getLast? h
  rw [lastParaRuns?, ht]
  rfl

theorem endsContentParaNB_elim {b : List Element}
    (h : endsContentParaNB b = true) :
    ∃ st rs, b.getLast? = some (.para st rs) ∧
      strippedEmpty (paraText rs) = false ∧
      rs.all (fun r => !r.hasPageBreak) = true := by
  unfold endsContentParaNB at h
  cases hl : b.getLast? with
  | none => rw [hl] at h; cases h
  | some e =>
    cases e with
    | table => rw [hl] at h; cases h
    | para st rs =>
      rw [hl] at h
      simp only [Bool.and_eq_true, Bool.not_eq_true'] at h
      exact ⟨st, rs, rfl, h.1, by simpa using h.2⟩

/-- A body ending in a non-whitespace paragraph is a trimmer fixed point. -/
theorem clean_eq_self_of_endsNB {b : List Element}
    (h : endsContentParaNB b = true) : cleanEmptyParasAtEnd b = b := by
  obtain ⟨st, rs, hl, hc, _⟩ := endsContentParaNB_elim h
  exact clean_eq_self_of_last_content hl hc

/-- A body ending in a non-whitespace paragraph has real content. -/
theorem content_of_endsNB {b : List Element}
    (h : endsContentParaNB b = true) : hasRealContent b = true := by
  obtain ⟨st, rs, hl, hc, _⟩ := endsContentParaNB_elim h
  rw [hasRealContent_eq_any]
  have hmem : Element.para st rs ∈ b := by
    obtain ⟨t, ht⟩ := exists_reverse_cons_of_getLast? hl
    have hm : Element.para st rs ∈ b.reverse := by
      rw [ht]
      exact List.mem_cons_self _ _
    simpa using hm
  rw [List.any_eq_true]
  exact ⟨Element.para st rs, hmem, by simp [Element.meaningful, hc]⟩

theorem firstContentIdxAux_isSome_lt : ∀ l : List Element,
    l.any Element.meaningful = true →
    ∃ i, firstContentIdxAux l = some i ∧ i < l.length
  | [], h => by simp at h
  | e :: rest, h => by
      by_cases he : Element.meaningful e = true
      · exact ⟨0, by simp [firstContentIdxAux, he], by simp⟩
      · simp only [Bool.not_eq_true] at he
        simp only [List.any_cons, he, Bool.false_or] at h
        obtain ⟨i, hi, hlt⟩ := firstContentIdxAux_isSome_lt rest h
        refine ⟨i + 1, ?_, by simpa using Nat.succ_lt_succ hlt⟩
        simp [firstContentIdxAux, he, hi]

theorem getLast?_drop_of_lt : ∀ (l : List Element) (i : Nat), i < l.length →
    (l.drop i).getLast? = l.getLast?
  | l, 0, _ => by simp
  | [], i + 1, h => by simp at h
  | a :: t, i + 1, h => by
      have ht : i < t.length := by simpa using h
      have := getLast?_drop_of_lt t i ht
      cases t with
      | nil => simp at ht
      | cons b t2 =>
        simpa [List.getLast?_cons_cons] using this

theorem keepInSplice_last (e : Element) : keepInSplice e true = true := by
  cases e <;> simp [keepInSplice]

theorem filterKeepLast_sublist : ∀ l : List Element,
    List.Sublist (filterKeepLast l) l
  | [] => by simp [filterKeepLast]
  | [e] => by
      by_cases h : keepInSplice e true = true
      · simp [filterKeepLast, h]
      · simp only [Bool.not_eq_true] at h
        simp [filterKeepLast, h]
  | e :: f :: rest => by
      by_cases h : keepInSplice e false = true
      · simpa [filterKeepLast, h] using
          List.Sublist.cons₂ e (filterKeepLast_sublist (f :: rest))
      · simp only [Bool.not_eq_true] at h
        simpa [filterKeepLast, h] using
          List.Sublist.cons e (filterKeepLast_sublist (f :: rest))

theorem filterKeepLast_cons_cons (e f : Element) (rest : List Element) :
    filterKeepLast (e :: f :: rest) =
      if keepInSplice e false then e :: filterKeepLast (f :: rest)
      else filterKeepLast (f :: rest) := rfl

theorem filterKeepLast_getLast : ∀ l : List Element, l ≠ [] →
    (filterKeepLast l).getLast? = l.getLast? ∧ filterKeepLast l ≠ []
  | [], h => absurd rfl h
  | [e], _ => by
      simp [filterKeepLast, keepInSplice_last]
  | e :: f :: rest, _ => by
      obtain ⟨ih1, ih2⟩ := filterKeepLast_getLast (f :: rest) (List.cons_ne_nil f rest)
      by_cases h : keepInSplice e false = true
      · constructor
        · rw [filterKeepLast_cons_cons, if_pos h]
          cases hf : filterKeepLast (f :: rest) with
          | nil => exact absurd hf ih2
          | cons x t =>
            rw [List.getLast?_cons_cons, List.getLast?_cons_cons, ← hf]
            exact ih1
        · rw [filterKeepLast_cons_cons, if_pos h]
          simp
      · simp only [Bool.not_eq_true] at h
        rw [filterKeepLast_cons_cons, if_neg (by simp [h])]
        exact ⟨by rw [ih1, List.getLast?_cons_cons], ih2⟩

theorem spliceWindow_sublist (b : List Element) :
    List.Sublist (spliceWindow b) b :=
  (filterKeepLast_sublist _).trans (List.drop_sublist _ _)

/-- For a content-bearing source the splice window is non-empty and keeps
the source's final element (the `element != source_elements[-1]` escape
hatch). -/
theorem spliceWindow_getLast {b : List Element}
    (h : hasRealContent b = true) :
    (spliceWindow b).getLast? = b.getLast? ∧ spliceWindow b ≠ [] := by
  have hany : b.any Element.meaningful = true := by
    rw [← hasRealContent_eq_any]; exact h
  obtain ⟨i, hi, hlt⟩ := firstContentIdxAux_isSome_lt b hany
  have hidx : firstContentIdx b = i := by simp [firstContentIdx, hi]
  have hdropne : b.drop i ≠ [] := by
    simpa [← List.length_pos_iff_ne_nil] using Nat.sub_pos_of_lt hlt
  have hfl := filterKeepLast_getLast (b.drop i) hdropne
  rw [spliceWindow, hidx]
  exact ⟨hfl.1.trans (getLast?_drop_of_lt b i hlt), hfl.2⟩

theorem endsContentParaNB_intro {b : List Element} {st : String} {rs : List Run}
    (h : b.getLast? = some (.para st rs))
    (hns : strippedEmpty (paraText rs) = false)
    (hnb : rs.all (fun r => !r.hasPageBreak) = true) :
    endsContentParaNB b = true := by
  unfold endsContentParaNB
  rw [h]
  simp [hns, hnb]

theorem any_break_eq_false_of_all {rs : List Run}
    (h : rs.all (fun r => !r.hasPageBreak) = true) :
    (rs.any fun r => r.hasPageBreak) = false := by
  simp only [List.all_eq_true, Bool.not_eq_true'] at h
  simp only [List.any_eq_false, Bool.not_eq_true]
  exact h

/-- One `_append_document` step preserves the boundary-count invariant
(with page breaks on, separators and numbering off): a contentless source
is skipped outright; a content-bearing good source adds exactly one break
paragraph when the master already has content, and none otherwise. -/
theorem appendDocument_inv (m src : List Element) (k n : Nat) (name : String)
    (opts : MergeOpts) (stats : Stats)
    (hpb : opts.addPageBreak = true) (hsep : opts.addSeparator = false)
    (hnum : opts.numberDocuments = false)
    (hbf : bodyBreakFree src = true)
    (hend : hasRealContent src = true → endsContentParaNB src = true)
    (hInv : MasterInv m k) :
    MasterInv (appendDocument m src n name opts stats).1
      (k + if hasRealContent src = true then 1 else 0) := by
  by_cases hsrc : hasRealContent src = true
  case neg =>
    have hsrc' : hasRealContent src = false := by
      simpa using hsrc
    have hres : (appendDocument m src n name opts stats).1 = m := by
      simp [appendDocument, hsrc']
    rw [hres, hsrc']
    simpa using hInv
  case pos =>
    have hendS := hend hsrc
    obtain ⟨sst, srs, hslast, hsns, hsnb⟩ := endsContentParaNB_elim hendS
    obtain ⟨hwlast, hwne⟩ := spliceWindow_getLast hsrc
    have hwlast' : (spliceWindow src).getLast? = some (Element.para sst srs) := by
      rw [hwlast, hslast]
    have hwzero : breakParaCount (spliceWindow src) = 0 :=
      breakParaCount_eq_zero_of_breakFree
        (breakFree_of_sublist (spliceWindow_sublist src) hbf)
    obtain ⟨hcount, hzero, hpos⟩ := hInv
    rw [hsrc, if_pos rfl]
    by_cases hk : k = 0
    case pos =>
      subst hk
      have hm0 : hasRealContent m = false := hzero rfl
      have hm1 : hasRealContent (cleanEmptyParasAtEnd m) = false :=
        hasRealContent_false_of_sublist (clean_sublist m) hm0
      have hres : (appendDocument m src n name opts stats).1 =
          cleanEmptyParasAtEnd (cleanEmptyParasAtEnd m ++ spliceWindow src) := by
        simp [appendDocument, hsrc, hpb, hm1, hsep, hnum]
      have hlast5 : (cleanEmptyParasAtEnd m ++ spliceWindow src).getLast? =
          some (Element.para sst srs) := by
        rw [List.getLast?_append_of_ne_nil _ hwne, hwlast']
      have hfix : cleanEmptyParasAtEnd (cleanEmptyParasAtEnd m ++ spliceWindow src) =
          cleanEmptyParasAtEnd m ++ spliceWindow src :=
        clean_eq_self_of_last_content hlast5 hsns
      rw [hres, hfix]
      refine ⟨?_, ?_, ?_⟩
      · rw [breakParaCount_append, clean_breaks, hwzero, hcount]
      · intro h0
        exact absurd h0 (by omega)
      · intro _
        have hends : endsContentParaNB (cleanEmptyParasAtEnd m ++ spliceWindow src) =
            true := endsContentParaNB_intro hlast5 hsns hsnb
        exact ⟨content_of_endsNB hends, hends⟩
    case neg =>
      obtain ⟨hmc, hmends⟩ := hpos hk
      obtain ⟨mst, mrs, hmlast, hmns, hmnb⟩ := endsContentParaNB_elim hmends
      have hm1eq : cleanEmptyParasAtEnd m = m :=
        clean_eq_self_of_endsNB hmends
      obtain ⟨gm, hgm⟩ := Option.isSome_iff_exists.mp (getLastMeaningful_isSome hmc)
      have hlp : lastParaRuns? m = some mrs := lastParaRuns?_of_getLast_para hmlast
      have hanyb : (mrs.any fun r => r.hasPageBreak) = false :=
        any_break_eq_false_of_all hmnb
      have hres : (appendDocument m src n name opts stats).1 =
          cleanEmptyParasAtEnd ((m ++ [pageBreakPara]) ++ spliceWindow src) := by
        simp [appendDocument, hsrc, hpb, hm1eq, hmc, hgm, hlp, hanyb, hsep, hnum]
      have hlast5 : ((m ++ [pageBreakPara]) ++ spliceWindow src).getLast? =
          some (Element.para sst srs) := by
        rw [List.getLast?_append_of_ne_nil _ hwne, hwlast']
      have hfix := clean_eq_self_of_last_content hlast5 hsns
      rw [hres, hfix]
      refine ⟨?_, ?_, ?_⟩
      · rw [breakParaCount_append, breakParaCount_append, hwzero, hcount]
        have hone : breakParaCount [pageBreakPara] = 1 := rfl
        rw [hone]
        omega
      · intro h0
        exact absurd h0 (by omega)
      · intro _
        have hends : endsContentParaNB
            ((m ++ [pageBreakPara]) ++ spliceWindow src) = true :=
          endsContentParaNB_intro hlast5 hsns hsnb
        exact ⟨content_of_endsNB hends, hends⟩

theorem filter_enumFrom_length : ∀ (l : List DocInfo) (n : Nat),
    ((l.enumFrom n).filter fun p => loadedContentful (Prod.snd p)).length =
      (l.filter loadedContentful).length
  | [], n => rfl
  | d :: t, n => by
      rw [List.enumFrom_cons]
      simp only [List.filter_cons]
      by_cases hc : loadedContentful d = true
      · simp only [hc, if_pos]
        simp [filter_enumFrom_length t (n + 1)]
      · simp only [Bool.not_eq_true] at hc
        simp only [hc, Bool.false_eq_true, if_false]
        exact filter_enumFrom_length t (n + 1)

/-- The main loop preserves the boundary-count invariant across any run
of good sources, and never fails on them. -/
theorem processRest_inv (opts : MergeOpts)
    (hpb : opts.addPageBreak = true) (hsep : opts.addSeparator = false)
    (hnum : opts.numberDocuments = false) :
    ∀ (l : List (Nat × DocInfo)) (m : List Element) (s : Stats) (k : Nat),
      (∀ p ∈ l, goodSource (Prod.snd p) = true) → MasterInv m k →
      ∃ ms, processRest opts l m s = .ok ms ∧
        MasterInv ms.1
          (k + (l.filter fun p => loadedContentful (Prod.snd p)).length)
  | [], m, s, k => by
      intro _ hInv
      exact ⟨(m, s), rfl, by simpa using hInv⟩
  | (i, d) :: rest, m, s, k => by
      intro hall hInv
      have hd : goodSource d = true := hall (i, d) (List.mem_cons_self _ _)
      unfold goodSource at hd
      cases hl : d.load with
      | none => rw [hl] at hd; cases hd
      | some b =>
        rw [hl] at hd
        simp only [Bool.and_eq_true, Bool.or_eq_true, Bool.not_eq_true'] at hd
        have hend : hasRealContent b = true → endsContentParaNB b = true := by
          intro hc
          rcases hd.2 with h | h
          · rw [hc] at h; cases h
          · exact h
        have hstep := appendDocument_inv m b k i d.name opts s hpb hsep hnum
          hd.1 hend hInv
        obtain ⟨ms, hms, hInv2⟩ := processRest_inv opts hpb hsep hnum rest
          (appendDocument m b i d.name opts s).1
          (appendDocument m b i d.name opts s).2
          (k + if hasRealContent b = true then 1 else 0)
          (fun p hp => hall p (List.mem_cons_of_mem _ hp)) hstep
        refine ⟨ms, ?_, ?_⟩
        · simp only [processRest, hl]
          exact hms
        · have hld : loadedContentful d = hasRealContent b := by
            unfold loadedContentful
            rw [hl]
          have hfc : (((i, d) :: rest).filter
              fun p => loadedContentful (Prod.snd p)).length =
              (if hasRealContent b = true then 1 else 0) +
                (rest.filter fun p => loadedContentful (Prod.snd p)).length := by
            simp only [List.filter_cons, hld]
            by_cases hc : hasRealContent b = true
            · simp only [hc, if_pos, List.length_cons]
              omega
            · simp only [Bool.not_eq_true] at hc
              simp [hc]
          rw [hfc, ← Nat.add_assoc]
          exact hInv2

/-! The head of the splice window of a content-bearing source. -/

/-- A meaningful element always passes the splice filter. -/
theorem keep_of_meaningful {e : Element} (h : Element.meaningful e = true)
    (b : Bool) : keepInSplice e b = true := by
  cases e with
  | table => rfl
  | para st rs =>
    simp only [Element.meaningful, Bool.not_eq_true'] at h
    simp [keepInSplice, h]

/-- The start-index scan stops at a meaningful element. -/
theorem firstContentIdxAux_drop : ∀ (l : List Element) (i : Nat),
    firstContentIdxAux l = some i →
    ∃ e t, l.drop i = e :: t ∧ Element.meaningful e = true
  | [], i => by simp [firstContentIdxAux]
  | e :: rest, i => by
      intro h
      by_cases he : Element.meaningful e = true
      · simp only [firstContentIdxAux, he, if_pos] at h
        injection h with h
        subst h
        exact ⟨e, rest, rfl, he⟩
      · simp only [Bool.not_eq_true] at he
        simp only [firstContentIdxAux, he, Bool.false_eq_true, if_false,
          Option.map_eq_some'] at h
        obtain ⟨j, hj, hi⟩ := h
        obtain ⟨f, t, hd, hm⟩ := firstContentIdxAux_drop rest j hj
        exact ⟨f, t, by rw [← hi]; simpa using hd, hm⟩

/-- The splice filter keeps a meaningful head in place. -/
theorem filterKeepLast_head : ∀ (e : Element) (t : List Element),
    Element.meaningful e = true → (filterKeepLast (e :: t)).head? = some e := by
  intro e t he
  cases t with
  | nil => simp [filterKeepLast, keep_of_meaningful he]
  | cons f rest => simp [filterKeepLast_cons_cons, keep_of_meaningful he]

/-- A content-bearing source's splice window begins with a meaningful
element (the element the start-index scan found). -/
theorem spliceWindow_head_meaningful {b : List Element}
    (h : hasRealContent b = true) :
    ∃ e, (spliceWindow b).head? = some e ∧ Element.meaningful e = true := by
  have hany : b.any Element.meaningful = true := by
    rw [← hasRealContent_eq_any]
    exact h
  obtain ⟨i, hi, _⟩ := firstContentIdxAux_isSome_lt b hany
  obtain ⟨e, t, hd, hm⟩ := firstContentIdxAux_drop b i hi
  have hidx : firstContentIdx b = i := by simp [firstContentIdx, hi]
  rw [spliceWindow, hidx, hd]
  exact ⟨e, filterKeepLast_head e t hm, hm⟩

/-- The splice window of a content-bearing source has real content. -/
theorem spliceWindow_content {b : List Element}
    (h : hasRealContent b = true) :
    hasRealContent (spliceWindow b) = true := by
  obtain ⟨e, hh, hm⟩ := spliceWindow_head_meaningful h
  rw [hasRealContent_eq_any, List.any_eq_true]
  refine ⟨e, ?_, hm⟩
  cases hw : spliceWindow b with
  | nil => rw [hw] at hh; cases hh
  | cons x t =>
    rw [hw] at hh
    injection hh with hh
    subst hh
    exact List.mem_cons_self _ _

/-- With page breaks on and separators/numbering off, an `_append_document`
call either leaves the master untouched (contentless source), appends the
splice window with no inserted break, or inserts exactly one break
paragraph — and in that case the trimmed master before the break has real
content and the splice window after it has real content, so a break is
never inserted with empty content on either side. -/
theorem appendDocument_break_sides (m src : List Element) (n : Nat)
    (name : String) (opts : MergeOpts) (s : Stats)
    (hpb : opts.addPageBreak = true) (hsep : opts.addSeparator = false)
    (hnum : opts.numberDocuments = false) :
    (appendDocument m src n name opts s).1 = m ∨
    (appendDocument m src n name opts s).1 =
      cleanEmptyParasAtEnd (cleanEmptyParasAtEnd m ++ spliceWindow src) ∨
    ((appendDocument m src n name opts s).1 =
      cleanEmptyParasAtEnd
        ((cleanEmptyParasAtEnd m ++ [pageBreakPara]) ++ spliceWindow src) ∧
     hasRealContent (cleanEmptyParasAtEnd m) = true ∧
     hasRealContent (spliceWindow src) = true) := by
  by_cases hsrc : hasRealContent src = true
  case neg =>
    left
    simp only [Bool.not_eq_true] at hsrc
    simp [appendDocument, hsrc]
  case pos =>
    by_cases hm1 : hasRealContent (cleanEmptyParasAtEnd m) = true
    case neg =>
      right; left
      simp only [Bool.not_eq_true] at hm1
      simp [appendDocument, hsrc, hpb, hm1, hsep, hnum]
    case pos =>
      cases hgm : getLastMeaningfulElement (cleanEmptyParasAtEnd m) with
      | none =>
        right; left
        simp [appendDocument, hsrc, hpb, hm1, hgm, hsep, hnum]
      | some g =>
        cases hlp : lastParaRuns? (cleanEmptyParasAtEnd m) with
        | none =>
          right; right
          refine ⟨?_, hm1, spliceWindow_content hsrc⟩
          simp [appendDocument, hsrc, hpb, hm1, hgm, hlp, hsep, hnum]
        | some rs =>
          by_cases hany : (rs.any fun r => r.hasPageBreak) = true
          · right; left
            simp [appendDocument, hsrc, hpb, hm1, hgm, hlp, hany, hsep, hnum]
          · right; right
            refine ⟨?_, hm1, spliceWindow_content hsrc⟩
            simp only [Bool.not_eq_true] at hany
            simp [appendDocument, hsrc, hpb, hm1, hgm, hlp, hany, hsep, hnum]

/-- C3 (amended): with `add_page_break=true` and separators, numbering,
cover page and table of contents off, merging documents that contain no
page-break nodes of their own and whose content-bearing members end in a
non-whitespace paragraph yields exactly `(number of content-bearing
documents) − 1` page-break paragraphs — `N − 1` when every document has
real content, fewer when some are contentless (skipped entirely), zero
when at most one has content.  Without the closing-paragraph condition
the count can fall short (see the counterexample): when a source ends in
a table right after an inserted break, the master's last paragraph still
carries that break and the next boundary's break is suppressed.
Moreover a page break is never inserted with empty content on either
side of it: every append under these options either leaves the master
untouched, splices with no inserted break, or inserts exactly one break
with the content-bearing trimmed master before it and the content-bearing
splice window after it. -/
theorem merge_break_count (docs : List DocInfo) (opts : MergeOpts)
    (out : List Element) (stats : Stats)
    (hall : docs.all goodSource = true)
    (hpb : opts.addPageBreak = true) (hsep : opts.addSeparator = false)
    (hnum : opts.numberDocuments = false) (hcov : opts.addCoverPage = false)
    (htoc : opts.addTableOfContents = false)
    (hok : mergeDocuments docs opts = .ok (out, stats)) :
    (breakParaCount out = (docs.filter loadedContentful).length - 1) ∧
    (∀ (m src : List Element) (n : Nat) (name : String) (s : Stats),
      (appendDocument m src n name opts s).1 = m ∨
      (appendDocument m src n name opts s).1 =
        cleanEmptyParasAtEnd (cleanEmptyParasAtEnd m ++ spliceWindow src) ∨
      ((appendDocument m src n name opts s).1 =
        cleanEmptyParasAtEnd
          ((cleanEmptyParasAtEnd m ++ [pageBreakPara]) ++ spliceWindow src) ∧
       hasRealContent (cleanEmptyParasAtEnd m) = true ∧
       hasRealContent (spliceWindow src) = true)) := by
  refine ⟨?_, fun m src n name s =>
    appendDocument_break_sides m src n name opts s hpb hsep hnum⟩
  cases docs with
  | nil => simp [mergeDocuments] at hok
  | cons first rest =>
    simp only [List.all_cons, Bool.and_eq_true] at hall
    obtain ⟨hfirst, hrest⟩ := hall
    unfold goodSource at hfirst
    cases hload : first.load with
    | none => rw [hload] at hfirst; cases hfirst
    | some b =>
      rw [hload] at hfirst
      simp only [Bool.and_eq_true, Bool.or_eq_true, Bool.not_eq_true'] at hfirst
      have hend : hasRealContent b = true → endsContentParaNB b = true := by
        intro hc
        rcases hfirst.2 with h | h
        · rw [hc] at h; cases h
        · exact h
      have hInv0 : MasterInv b (if hasRealContent b = true then 1 else 0) := by
        by_cases hc : hasRealContent b = true
        · rw [if_pos hc]
          exact ⟨(by rw [breakParaCount_eq_zero_of_breakFree hfirst.1]),
            ⟨(by intro h0; cases h0), fun _ => ⟨hc, hend hc⟩⟩⟩
        · simp only [Bool.not_eq_true] at hc
          rw [if_neg (by simp [hc])]
          exact ⟨(by rw [breakParaCount_eq_zero_of_breakFree hfirst.1]),
            ⟨fun _ => hc, fun h0 => absurd rfl h0⟩⟩
      rw [mergeDocuments_eq first rest opts b hload] at hok
      have hcov2 : (if opts.addCoverPage then addCoverPage b opts else b) = b := by
        rw [hcov]
        rfl
      rw [hcov2] at hok
      have hrest2 := List.all_eq_true.mp hrest
      obtain ⟨ms, hms, hInvF⟩ := processRest_inv opts hpb hsep hnum
        (rest.enumFrom 2) b { totalDocs := rest.length + 1 }
        (if hasRealContent b = true then 1 else 0)
        (fun p hp => hrest2 p.2 (List.snd_mem_of_mem_enumFrom hp)) hInv0
      rw [hms] at hok
      injection hok with hok
      have hout : out = ms.1 := by
        have hfst := congrArg Prod.fst hok
        rw [htoc] at hfst
        exact hfst.symm
      have hld : loadedContentful first = hasRealContent b := by
        unfold loadedContentful
        rw [hload]
      have hflen := filter_enumFrom_length rest 2
      rw [hout, hInvF.1, hflen]
      simp only [List.filter_cons, hld]
      by_cases hc : hasRealContent b = true
      · simp [hc]
      · simp only [Bool.not_eq_true] at hc
        simp [hc]

/-- Closed instance of the boundary-count theorem: two content-bearing
documents merged with page breaks produce 2 − 1 = 1 break paragraph, and
any append under those options inserts a break only between real
content. -/
theorem merge_break_count_witness :
    (breakParaCount [mkPara "Normal" "x", pageBreakPara, mkPara "Normal" "y"] =
      ([(⟨"a", some [mkPara "Normal" "x"]⟩ : DocInfo),
        ⟨"b", some [mkPara "Normal" "y"]⟩].filter loadedContentful).length - 1) ∧
    (∀ (m src : List Element) (n : Nat) (name : String) (s : Stats),
      (appendDocument m src n name pageBreakOnlyOpts s).1 = m ∨
      (appendDocument m src n name pageBreakOnlyOpts s).1 =
        cleanEmptyParasAtEnd (cleanEmptyParasAtEnd m ++ spliceWindow src) ∨
      ((appendDocument m src n name pageBreakOnlyOpts s).1 =
        cleanEmptyParasAtEnd
          ((cleanEmptyParasAtEnd m ++ [pageBreakPara]) ++ spliceWindow src) ∧
       hasRealContent (cleanEmptyParasAtEnd m) = true ∧
       hasRealContent (spliceWindow src) = true)) :=
  merge_break_count
    [⟨"a", some [mkPara "Normal" "x"]⟩, ⟨"b", some [mkPara "Normal" "y"]⟩]
    pageBreakOnlyOpts
    [mkPara "Normal" "x", pageBreakPara, mkPara "Normal" "y"]
    { totalDocs := 2, totalParagraphs := 1, totalTables := 0 }
    (by decide) rfl rfl rfl rfl rfl rfl


/-! Head preservation across the orchestrator's operations. -/

theorem headPB_elim {b : List Element} (h : headIsPurposelessBreak b = true) :
    ∃ e, b.head? = some e ∧ Element.hasBreakNode e = true ∧
      Element.meaningful e = false := by
  unfold headIsPurposelessBreak at h
  cases hb : b.head? with
  | none => rw [hb] at h; cases h
  | some e =>
    rw [hb] at h
    simp only [Bool.and_eq_true, Bool.not_eq_true'] at h
    exact ⟨e, rfl, h.1, h.2⟩

theorem headPB_intro {b : List Element} {e : Element} (hh : b.head? = some e)
    (hb : Element.hasBreakNode e = true) (hm : Element.meaningful e = false) :
    headIsPurposelessBreak b = true := by
  unfold headIsPurposelessBreak
  rw [hh]
  simp [hb, hm]

theorem head?_append_cases {X ys : List Element} {e : Element}
    (h : (X ++ ys).head? = some e) :
    X.head? = some e ∨ (X = [] ∧ ys.head? = some e) := by
  cases X with
  | nil => exact Or.inr ⟨rfl, by simpa using h⟩
  | cons a t => exact Or.inl (by simpa using h)

theorem getLast?_cons_eq (a : Element) (l : List Element) :
    (a :: l).getLast? = (if l.isEmpty then some a else l.getLast?) := by
  cases l with
  | nil => rfl
  | cons b t => simp [List.getLast?_cons_cons]

/-- The trimmer scan keeps the deepest element, passes over tables, or
empties the list: its result's last element (in reversed order, the
result's first element before re-reversing) is the input's, or a table,
or nothing. -/
theorem cleanRevAux_getLast : ∀ l : List Element,
    (cleanRevAux l).getLast? = l.getLast? ∨ cleanRevAux l = [] ∨
    (cleanRevAux l).getLast? = some Element.table
  | [] => Or.inr (Or.inl rfl)
  | .table :: rest => by
      rw [show cleanRevAux (Element.table :: rest) = Element.table :: cleanRevAux rest
        from rfl, getLast?_cons_eq, getLast?_cons_eq]
      by_cases hc : (cleanRevAux rest).isEmpty = true
      · right; right
        simp [hc]
      · have hrest : rest.isEmpty = false := by
          cases rest with
          | nil => simp [cleanRevAux] at hc
          | cons _ _ => rfl
        simp only [Bool.not_eq_true] at hc
        rcases cleanRevAux_getLast rest with h | h | h
        · left
          simp [hc, hrest, h]
        · rw [h] at hc
          simp at hc
        · right; right
          simp [hc, h]
  | .para st rs :: rest => by
      by_cases hrem : removablePara rs = true
      · rw [show cleanRevAux (Element.para st rs :: rest) = cleanRevAux rest
          from by simp [cleanRevAux, hrem]]
        cases rest with
        | nil => exact Or.inr (Or.inl rfl)
        | cons r rt =>
          rcases cleanRevAux_getLast (r :: rt) with h | h | h
          · left
            rw [h, List.getLast?_cons_cons]
          · exact Or.inr (Or.inl h)
          · exact Or.inr (Or.inr h)
      · simp only [Bool.not_eq_true] at hrem
        left
        simp [cleanRevAux, hrem]

/-- The trimmer preserves the head of the body, unless it empties it or
exposes a leading table; it never exposes a new leading paragraph. -/
theorem clean_head? (X : List Element) :
    (cleanEmptyParasAtEnd X).head? = X.head? ∨ cleanEmptyParasAtEnd X = [] ∨
    (cleanEmptyParasAtEnd X).head? = some Element.table := by
  have h1 : (cleanEmptyParasAtEnd X).head? = (cleanRevAux X.reverse).getLast? := by
    rw [cleanEmptyParasAtEnd, List.head?_reverse]
  have h2 : X.head? = X.reverse.getLast? := by
    rw [← List.head?_reverse, List.reverse_reverse]
  rcases cleanRevAux_getLast X.reverse with h | h | h
  · left
    rw [h1, h, ← h2]
  · right; left
    rw [cleanEmptyParasAtEnd, h]
    rfl
  · right; right
    rw [h1, h]

theorem hasBreakNode_headerPara (n : Nat) (name : String) :
    Element.hasBreakNode (headerPara n name) = false := rfl

theorem hasBreakNode_separatorPara :
    Element.hasBreakNode separatorPara = false := rfl

theorem ne_nil_of_hasRealContent {X : List Element}
    (h : hasRealContent X = true) : X ≠ [] := by
  intro hn
  rw [hn] at h
  exact absurd h (by decide)

theorem optExtras_breakless (opts : MergeOpts) (n : Nat) (name : String) :
    ∀ y ∈ ((if opts.numberDocuments then [headerPara n name] else []) ++
        (if opts.addSeparator then [separatorPara] else [])),
      Element.hasBreakNode y = false := by
  intro y hy
  rw [List.mem_append] at hy
  rcases hy with hy | hy
  · by_cases hn : opts.numberDocuments = true
    · rw [if_pos hn] at hy
      rw [List.mem_singleton.mp hy]
      exact hasBreakNode_headerPara n name
    · rw [if_neg hn] at hy
      cases hy
  · by_cases hs : opts.addSeparator = true
    · rw [if_pos hs] at hy
      rw [List.mem_singleton.mp hy]
      exact hasBreakNode_separatorPara
    · rw [if_neg hs] at hy
      cases hy

/-- The result of `_append_document` on a content-bearing source, as the
trimmed master, an optional inserted break (only present when the trimmed
master has real content), the optional break-free header/separator
paragraphs, and the splice window, trimmed once more. -/
theorem appendDocument_shape (m src : List Element) (n : Nat) (name : String)
    (opts : MergeOpts) (stats : Stats) (hsrc : hasRealContent src = true) :
    ∃ zs ys,
      (appendDocument m src n name opts stats).1 =
        cleanEmptyParasAtEnd
          (((cleanEmptyParasAtEnd m ++ zs) ++ ys) ++ spliceWindow src) ∧
      (zs = [] ∨ cleanEmptyParasAtEnd m ≠ []) ∧
      (∀ y ∈ ys, Element.hasBreakNode y = false) := by
  by_cases hpbc : (opts.addPageBreak && hasRealContent (cleanEmptyParasAtEnd m)) = true
  case neg =>
    refine ⟨[], (if opts.numberDocuments then [headerPara n name] else []) ++
      (if opts.addSeparator then [separatorPara] else []), ?_, Or.inl rfl,
      optExtras_breakless opts n name⟩
    simp only [Bool.not_eq_true] at hpbc
    by_cases hn : opts.numberDocuments = true <;>
      by_cases hs : opts.addSeparator = true <;>
      simp [appendDocument, hsrc, hpbc, hn, hs, List.append_assoc]
  case pos =>
    have hm1 : hasRealContent (cleanEmptyParasAtEnd m) = true :=
      ((Bool.and_eq_true _ _).mp hpbc).2
    have hne : cleanEmptyParasAtEnd m ≠ [] := ne_nil_of_hasRealContent hm1
    have hpb : opts.addPageBreak = true := ((Bool.and_eq_true _ _).mp hpbc).1
    cases hgm : getLastMeaningfulElement (cleanEmptyParasAtEnd m) with
    | none =>
      refine ⟨[], (if opts.numberDocuments then [headerPara n name] else []) ++
        (if opts.addSeparator then [separatorPara] else []), ?_, Or.inl rfl,
        optExtras_breakless opts n name⟩
      by_cases hn : opts.numberDocuments = true <;>
        by_cases hs : opts.addSeparator = true <;>
        simp [appendDocument, hsrc, hpb, hm1, hgm, hn, hs, List.append_assoc]
    | some g =>
      cases hlp : lastParaRuns? (cleanEmptyParasAtEnd m) with
      | none =>
        refine ⟨[pageBreakPara], (if opts.numberDocuments then [headerPara n name] else []) ++
          (if opts.addSeparator then [separatorPara] else []), ?_, Or.inr hne,
          optExtras_breakless opts n name⟩
        by_cases hn : opts.numberDocuments = true <;>
          by_cases hs : opts.addSeparator = true <;>
          simp [appendDocument, hsrc, hpb, hm1, hgm, hlp, hn, hs, List.append_assoc]
      | some rs =>
        by_cases hany : (rs.any fun r => r.hasPageBreak) = true
        · refine ⟨[], (if opts.numberDocuments then [headerPara n name] else []) ++
            (if opts.addSeparator then [separatorPara] else []), ?_, Or.inl rfl,
            optExtras_breakless opts n name⟩
          by_cases hn : opts.numberDocuments = true <;>
            by_cases hs : opts.addSeparator = true <;>
            simp [appendDocument, hsrc, hpb, hm1, hgm, hlp, hany, hn, hs,
              List.append_assoc]
        · refine ⟨[pageBreakPara], (if opts.numberDocuments then [headerPara n name] else []) ++
            (if opts.addSeparator then [separatorPara] else []), ?_, Or.inr hne,
            optExtras_breakless opts n name⟩
          simp only [Bool.not_eq_true] at hany
          by_cases hn : opts.numberDocuments = true <;>
            by_cases hs : opts.addSeparator = true <;>
            simp [appendDocument, hsrc, hpb, hm1, hgm, hlp, hany, hn, hs,
              List.append_assoc]

/-- If the trimmed body begins with a purposeless break element, the body
itself already did: the trimmer never exposes a new leading paragraph. -/
theorem headPB_of_clean_head {doc : List Element} {e : Element}
    (h1 : (cleanEmptyParasAtEnd doc).head? = some e)
    (hb : Element.hasBreakNode e = true) (hmf : Element.meaningful e = false) :
    headIsPurposelessBreak doc = true := by
  rcases clean_head? doc with hc | hc | hc
  · rw [hc] at h1
    exact headPB_intro h1 hb hmf
  · rw [hc] at h1
    cases h1
  · rw [hc] at h1
    injection h1 with h1
    rw [← h1] at hb
    simp [Element.hasBreakNode] at hb

/-- An append never makes the master begin with a purposeless page-break
element: the inserted break is appended behind existing content, the
header/separator paragraphs carry no break, and the splice window begins
with a meaningful element. -/
theorem appendDocument_headPB (m src : List Element) (n : Nat) (name : String)
    (opts : MergeOpts) (stats : Stats)
    (h : headIsPurposelessBreak (appendDocument m src n name opts stats).1 = true) :
    headIsPurposelessBreak m = true := by
  by_cases hsrc : hasRealContent src = true
  case neg =>
    simp only [Bool.not_eq_true] at hsrc
    have hres : (appendDocument m src n name opts stats).1 = m := by
      simp [appendDocument, hsrc]
    rwa [hres] at h
  case pos =>
    obtain ⟨zs, ys, hres, hzs, hys⟩ := appendDocument_shape m src n name opts stats hsrc
    rw [hres] at h
    obtain ⟨e, hh, hb, hmf⟩ := headPB_elim h
    have hh5 : (((cleanEmptyParasAtEnd m ++ zs) ++ ys) ++ spliceWindow src).head? =
        some e := by
      rcases clean_head? (((cleanEmptyParasAtEnd m ++ zs) ++ ys) ++ spliceWindow src)
        with hc | hc | hc
      · rw [← hc]
        exact hh
      · rw [hc] at hh
        cases hh
      · rw [hc] at hh
        injection hh with hh
        rw [← hh] at hb
        simp [Element.hasBreakNode] at hb
    rcases head?_append_cases hh5 with hh4 | ⟨hXnil, hwh⟩
    · rcases head?_append_cases hh4 with hh3 | ⟨hXnil2, hyh⟩
      · rcases head?_append_cases hh3 with hh1 | ⟨hMnil, hzh⟩
        · exact headPB_of_clean_head hh1 hb hmf
        · rcases hzs with hz | hz
          · rw [hz] at hzh
            cases hzh
          · exact absurd hMnil hz
      · cases ys with
        | nil => cases hyh
        | cons y yt =>
          have hybf := hys y (List.mem_cons_self _ _)
          have hye : y = e := by simpa using hyh
          rw [hye] at hybf
          rw [hybf] at hb
          cases hb
    · obtain ⟨w, hwhd, hwm⟩ := spliceWindow_head_meaningful hsrc
      rw [hwh] at hwhd
      injection hwhd with hwhd
      rw [← hwhd] at hwm
      rw [hwm] at hmf
      cases hmf

/-- The head of `insertBlankBeforeFirstPara` is the inserted blank
paragraph, or a leading table, never an element with a page break. -/
theorem insertBlank_head_not_breaky : ∀ (doc : List Element) (e : Element),
    (insertBlankBeforeFirstPara doc).head? = some e →
    Element.hasBreakNode e = true → False := by
  intro doc e hh hb
  unfold insertBlankBeforeFirstPara at hh
  cases doc with
  | nil => simp [insertBlankBeforeFirstPara.firstParaIdx] at hh
  | cons a t =>
    by_cases ha : a.isPara = true
    · have hidx : insertBlankBeforeFirstPara.firstParaIdx (a :: t) = some 0 := by
        simp [insertBlankBeforeFirstPara.firstParaIdx, ha]
      rw [hidx] at hh
      simp at hh
      rw [← hh] at hb
      simp [Element.hasBreakNode] at hb
    · have hidx : insertBlankBeforeFirstPara.firstParaIdx (a :: t) =
          (insertBlankBeforeFirstPara.firstParaIdx t).map (· + 1) := by
        simp [insertBlankBeforeFirstPara.firstParaIdx, ha]
      have ha2 : a = Element.table := by
        cases a with
        | para st rs => simp [Element.isPara] at ha
        | table => rfl
      rw [hidx] at hh
      cases hft : insertBlankBeforeFirstPara.firstParaIdx t with
      | none =>
        rw [hft] at hh
        simp at hh
        rw [← hh, ha2] at hb
        simp [Element.hasBreakNode] at hb
      | some j =>
        rw [hft] at hh
        simp at hh
        rw [← hh, ha2] at hb
        simp [Element.hasBreakNode] at hb

/-- The head of the cover-page result: the cover block and its conditional
break are appended after the (blank-extended) original body, whose
title-extended form is never empty. -/
theorem addCoverPage_head (doc : List Element) (opts : MergeOpts) :
    (addCoverPage doc opts).head? =
      (insertBlankBeforeFirstPara doc ++
        [mkPara "Title" (opts.coverTitle.getD "Documentos Combinados")]).head? := by
  unfold addCoverPage
  dsimp only
  split_ifs <;> cases insertBlankBeforeFirstPara doc <;> rfl

/-- The cover-page pass never leaves the master beginning with a
purposeless page-break element. -/
theorem addCoverPage_headPB (doc : List Element) (opts : MergeOpts) :
    headIsPurposelessBreak (addCoverPage doc opts) = false := by
  by_contra hcon
  simp only [Bool.not_eq_false] at hcon
  obtain ⟨e, hh, hb, hmf⟩ := headPB_elim hcon
  rw [addCoverPage_head] at hh
  rcases head?_append_cases hh with h1 | ⟨h1, h2⟩
  · exact insertBlank_head_not_breaky doc e h1 hb
  · simp at h2
    rw [← h2] at hb
    rw [hasBreakNode_mkPara] at hb
    cases hb

theorem addTableOfContents_head (doc : List Element) (docs : List DocInfo) :
    (addTableOfContents doc docs).head? =
      ((if hasRealContent (cleanEmptyParasAtEnd doc) then
          cleanEmptyParasAtEnd doc ++ [pageBreakPara]
        else cleanEmptyParasAtEnd doc) ++
        [mkPara "Heading 1" "Índice de Contenidos"]).head? := by
  unfold addTableOfContents
  dsimp only
  split_ifs <;> cases cleanEmptyParasAtEnd doc <;> rfl

/-- The table-of-contents pass never introduces a leading purposeless
page-break element: the master can begin with one afterwards only if it
already did. -/
theorem addTableOfContents_headPB (doc : List Element) (docs : List DocInfo)
    (h : headIsPurposelessBreak (addTableOfContents doc docs) = true) :
    headIsPurposelessBreak doc = true := by
  obtain ⟨e, hh, hb, hmf⟩ := headPB_elim h
  rw [addTableOfContents_head] at hh
  rcases head?_append_cases hh with h1 | ⟨h1, h2⟩
  · by_cases hcnt : hasRealContent (cleanEmptyParasAtEnd doc) = true
    · rw [if_pos hcnt] at h1
      rcases head?_append_cases h1 with h1a | ⟨hnil, _⟩
      · exact headPB_of_clean_head h1a hb hmf
      · exact absurd hnil (ne_nil_of_hasRealContent hcnt)
    · rw [if_neg (by simp [Bool.not_eq_true] at hcnt ⊢; exact hcnt)] at h1
      exact headPB_of_clean_head h1 hb hmf
  · simp at h2
    rw [← h2] at hb
    rw [hasBreakNode_mkPara] at hb
    cases hb

/-- C9 (amended): the head side of the invariant holds — no orchestrator
operation introduces a leading element whose only purpose is a page break
with no preceding content: the cover-page pass never leaves one, and the
append and table-of-contents passes leave one only if the master already
began with one.  On the tail side, an append leaves the master a fixed
point of the trailing-blank trimmer when the source has real content (its
last paragraph, if any, is ineligible for removal) and leaves the master
untouched when the source is contentless; the table-of-contents pass,
however, always ends the master with an unconditional page-break
paragraph, and the trimmer fixed point still allows up to two trailing
empty paragraphs when they carry special formatting — both failures of
the claim are exhibited by the counterexample. -/
theorem master_tail_after_ops :
    (∀ (m src : List Element) (n : Nat) (name : String) (opts : MergeOpts)
        (stats : Stats), hasRealContent src = true →
        cleanEmptyParasAtEnd (appendDocument m src n name opts stats).1 =
          (appendDocument m src n name opts stats).1) ∧
    (∀ (m src : List Element) (n : Nat) (name : String) (opts : MergeOpts)
        (stats : Stats), hasRealContent src = false →
        (appendDocument m src n name opts stats).1 = m) ∧
    (∀ (m src : List Element) (n : Nat) (name : String) (opts : MergeOpts)
        (stats : Stats),
        headIsPurposelessBreak (appendDocument m src n name opts stats).1 = true →
        headIsPurposelessBreak m = true) ∧
    (∀ (doc : List Element) (opts : MergeOpts),
        headIsPurposelessBreak (addCoverPage doc opts) = false) ∧
    (∀ (doc : List Element) (docs : List DocInfo),
        headIsPurposelessBreak (addTableOfContents doc docs) = true →
        headIsPurposelessBreak doc = true) ∧
    (∀ (d : List Element) (docs : List DocInfo),
        (addTableOfContents d docs).getLast? = some pageBreakPara) := by
  refine ⟨?_, ?_, ?_, ?_, ?_, ?_⟩
  · intro m src n name opts stats h
    unfold appendDocument
    rw [h]
    simp only [Bool.not_true, Bool.false_eq_true, if_false]
    simp [cleanEmptyParasAtEnd, cleanRevAux_idem]
  · intro m src n name opts stats h
    simp [appendDocument, h]
  · intro m src n name opts stats h
    exact appendDocument_headPB m src n name opts stats h
  · intro doc opts
    exact addCoverPage_headPB doc opts
  · intro doc docs h
    exact addTableOfContents_headPB doc docs h
  · intro d docs
    unfold addTableOfContents
    exact List.getLast?_concat _

end WordMerge
